import Mathlib

/-!
# Lexer matcher of json-voorhees (`src/jsonv/detail/token_patterns.cpp`)

A shallow embedding of `attempt_match` and of the helpers it dispatches to.

* A byte range `[begin, end)` is a `List Nat`; every element is the numeric value of one
  `char`.  `begin + k == end` becomes `k = s.length`, `begin[k]` becomes the `k`-th element.
* The three results of a call (the returned `match_result` and the out-parameters `kind` and
  `length`) are returned together as a triple.
* The four `regex` constants are values of `Matcher`.  The semantics of the pattern engine is
  the backtracking semantics of ECMA-262 (the grammar selected by
  `regex_constants::ECMAScript`), written as a list of successes: a matcher maps a state to the
  states it can end in, ordered by the priority in which a backtracking engine tries them.
-/

namespace jsonv.detail

/-! ## Enumerations of `token_patterns.hpp` -/

/-- Modelled from the spec: the enumeration `token_kind` of the header
`jsonv/detail/token_patterns.hpp`, with the thirteen kinds of section 3 of the specification. -/
inductive token_kind
  | array_begin
  | array_end
  | object_begin
  | object_end
  | object_key_delimiter
  | separator
  | boolean
  | null
  | number
  | string
  | whitespace
  | comment
  | unknown
  deriving DecidableEq, Repr

/-- Modelled from the spec: the enumeration `match_result` of the header
`jsonv/detail/token_patterns.hpp`, with the four outcomes of section 3 of the specification. -/
inductive match_result
  | complete
  | complete_eof
  | incomplete_eof
  | unmatched
  deriving DecidableEq, Repr

/-! ## The pattern engine -/

/-- The state of a match in progress: the index reached in the input (the `endIndex` of
ECMA-262) together with the bytes of the input from that index on. -/
abbrev State := Nat × List Nat

/-- A compiled pattern: the states in which a match starting in a given state can end, most
preferred first.  The first element is the match a backtracking engine reports. -/
abbrev Matcher := State → List State

/-- A pattern character or a bracket expression: consumes one byte that satisfies `p`. -/
def cls (p : Nat → Bool) : Matcher
  | (i, c :: s) => if p c then [(i + 1, s)] else []
  | (_, []) => []

/-- The assertion `^`: holds at the first index of the input only (no `multiline`). -/
def bol : Matcher := fun x => if x.1 = 0 then [x] else []

/-- Concatenation: every way to match `a`, each continued by every way to match `b`. -/
def seq (a b : Matcher) : Matcher := fun x => (a x).flatMap b

/-- The disjunction `a|b`: the matches of `a` are tried before those of `b`. -/
def alt (a b : Matcher) : Matcher := fun x => a x ++ b x

/-- RepeatMatcher of ECMA-262 for a greedy quantifier with bounds `min` and `max` (`none` is
no upper bound).  An iteration that consumes nothing is rejected once `min` is zero.  The
first argument after `m` bounds the depth of the recursion; see `rep`. -/
def repeatMatcher (m : Matcher) : Nat → Nat → Option Nat → Matcher
  | 0, _, _, _ => []
  | fuel + 1, min, max, x =>
    if max = some 0 then [x]
    else
      let d : Matcher := fun y =>
        if min = 0 ∧ y.1 = x.1 then []
        else repeatMatcher m fuel (min - 1) (max.map (· - 1)) y
      if min ≠ 0 then (m x).flatMap d
      else (m x).flatMap d ++ [x]

/-- A greedy quantifier `{min,max}`.  Every iteration either lowers `min` or consumes a byte,
so the recursion of `repeatMatcher` is never deeper than `min` plus the number of bytes left,
plus one. -/
def rep (m : Matcher) (min : Nat) (max : Option Nat) : Matcher :=
  fun x => repeatMatcher m (min + x.2.length + 1) min max x

/-- The quantifier `*`. -/
def star (m : Matcher) : Matcher := rep m 0 none

/-- The quantifier `+`. -/
def plus (m : Matcher) : Matcher := rep m 1 none

/-- The quantifier `?`. -/
def opt (m : Matcher) : Matcher := rep m 0 (some 1)

/-- The quantifier `{n}`. -/
def times (n : Nat) (m : Matcher) : Matcher := rep m n (some n)

/-- A single pattern character. -/
def lit (c : Nat) : Matcher := cls (fun b => b == c)

/-- The search of `regex_search` from index `i` on: the first index at which the pattern
matches, with the length of the preferred match there. -/
def searchFrom (pattern : Matcher) : Nat → List Nat → Option (Nat × Nat)
  | i, [] =>
    match (pattern (i, [])).head? with
    | some y => some (i, y.1 - i)
    | none => none
  | i, c :: t =>
    match (pattern (i, c :: t)).head? with
    | some y => some (i, y.1 - i)
    | none => searchFrom pattern (i + 1) t

/-- The call `regex_search(begin, end, match, pattern)`: `none` when it returns false,
otherwise `match.position(0)` and `match.length(0)`. -/
def regex_search (s : List Nat) (pattern : Matcher) : Option (Nat × Nat) :=
  searchFrom pattern 0 s

/-! ## The four patterns -/

/-- The bracket expression `[0-9]`. -/
def isDigit (c : Nat) : Bool := 48 ≤ c && c ≤ 57

/-- The bracket expression `[eE]`. -/
def isExpChar (c : Nat) : Bool := c == 101 || c == 69

/-- The bracket expression `[0-9a-fA-F]`. -/
def isHex (c : Nat) : Bool :=
  (48 ≤ c && c ≤ 57) || (97 ≤ c && c ≤ 102) || (65 ≤ c && c ≤ 70)

/-- The bracket expression `[^\]|\["\/bfnrt]`: any byte but `]`, `|`, `[`, `"`, `/`, `b`,
`f`, `n`, `r`, `t`. -/
def isStringChar (c : Nat) : Bool :=
  !(c == 93 || c == 124 || c == 91 || c == 34 || c == 47
    || c == 98 || c == 102 || c == 110 || c == 114 || c == 116)

/-- The bracket expression `[ \t\r\n]`. -/
def isSpace (c : Nat) : Bool := c == 32 || c == 9 || c == 13 || c == 10

/-- The bracket expression `[^\*]`. -/
def isNotStar (c : Nat) : Bool := !(c == 42)

/-- The bracket expression `[^/]`. -/
def isNotSlash (c : Nat) : Bool := !(c == 47)

/-- The group `(\.[0-9]+)` of `re_number`. -/
def re_number_frac : Matcher := seq (lit 46) (plus (cls isDigit))

/-- The pattern `^-?[0-9]+(\.[0-9]+)?([eE]-?[0-9]+(\.[0-9]+)?)?`. -/
def re_number : Matcher :=
  seq bol (seq (opt (lit 45)) (seq (plus (cls isDigit)) (seq (opt re_number_frac)
    (opt (seq (cls isExpChar) (seq (opt (lit 45)) (seq (plus (cls isDigit))
      (opt re_number_frac))))))))

/-- The pattern `^\"([^\]|\["\/bfnrt]|\\u[0-9a-fA-F]{4})*\"`. -/
def re_string : Matcher :=
  seq bol (seq (lit 34)
    (seq (star (alt (cls isStringChar) (seq (lit 92) (seq (lit 117) (times 4 (cls isHex))))))
      (lit 34)))

/-- The pattern `^[ \t\r\n]+`. -/
def re_whitespace : Matcher := seq bol (plus (cls isSpace))

/-- The pattern `^/\*([^\*]*|\*[^/])*\*/`. -/
def re_comment : Matcher :=
  seq bol (seq (lit 47) (seq (lit 42)
    (seq (star (alt (star (cls isNotStar)) (seq (lit 42) (cls isNotSlash))))
      (seq (lit 42) (lit 47)))))

/-! ## The matchers of `token_patterns.cpp` -/

/-- The loop of `match_literal`: `k` iterations are left, `length` is the loop variable. -/
def match_literal_loop (s literal : List Nat) : Nat → Nat → match_result × Nat
  | 0, length => (match_result.complete, length)
  | k + 1, length =>
    if length = s.length then (match_result.incomplete_eof, length)
    else if s.getD length 0 ≠ literal.getD length 0 then (match_result.unmatched, length)
    else match_literal_loop s literal k (length + 1)

/-- The template `match_literal`: `literal` is the array of `N` chars (the last one is the
terminating zero), the loop runs `length` from `0` to `N-1`. -/
def match_literal (s literal : List Nat) : match_result × Nat :=
  match_literal_loop s literal (literal.length - 1) 0

/-- The string literal `"true"` as a `const char[5]`. -/
def lit_true : List Nat := [116, 114, 117, 101, 0]

/-- The string literal `"false"` as a `const char[6]`. -/
def lit_false : List Nat := [102, 97, 108, 115, 101, 0]

/-- The string literal `"null"` as a `const char[5]`. -/
def lit_null : List Nat := [110, 117, 108, 108, 0]

/-- The function `match_true`: sets `kind` to `boolean`, matches the literal `"true"`. -/
def match_true (s : List Nat) : match_result × token_kind × Nat :=
  let r := match_literal s lit_true
  (r.1, token_kind.boolean, r.2)

/-- The function `match_false`: sets `kind` to `boolean`, matches the literal `"false"`. -/
def match_false (s : List Nat) : match_result × token_kind × Nat :=
  let r := match_literal s lit_false
  (r.1, token_kind.boolean, r.2)

/-- The function `match_null`: sets `kind` to `null`, matches the literal `"null"`. -/
def match_null (s : List Nat) : match_result × token_kind × Nat :=
  let r := match_literal s lit_null
  (r.1, token_kind.null, r.2)

/-- The function `match_pattern`: when `regex_search` succeeds, `length` is `match.length(0)`
and the result is `complete_eof` if `begin + length == end`, else `complete`; otherwise
`length` is `1` and the result is `unmatched`. -/
def match_pattern (s : List Nat) (pattern : Matcher) : match_result × Nat :=
  match regex_search s pattern with
  | some m =>
    let length := m.2
    (if length = s.length then match_result.complete_eof else match_result.complete, length)
  | none => (match_result.unmatched, 1)

/-- The function `match_number`: sets `kind` to `number`, matches `re_number`. -/
def match_number (s : List Nat) : match_result × token_kind × Nat :=
  let r := match_pattern s re_number
  (r.1, token_kind.number, r.2)

/-- The function `match_string`: sets `kind` to `string`, matches `re_string`. -/
def match_string (s : List Nat) : match_result × token_kind × Nat :=
  let r := match_pattern s re_string
  (r.1, token_kind.string, r.2)

/-- The function `match_whitespace`: sets `kind` to `whitespace`, matches `re_whitespace`. -/
def match_whitespace (s : List Nat) : match_result × token_kind × Nat :=
  let r := match_pattern s re_whitespace
  (r.1, token_kind.whitespace, r.2)

/-- The function `match_comment`: sets `kind` to `comment`, matches `re_comment`. -/
def match_comment (s : List Nat) : match_result × token_kind × Nat :=
  let r := match_pattern s re_comment
  (r.1, token_kind.comment, r.2)

/-- The function `attempt_match(begin, end, kind, length)`; the result is
`(returned value, kind, length)`.  The byte values of the case labels: `[` 91, `]` 93,
`{` 123, `}` 125, `:` 58, `,` 44, `t` 116, `f` 102, `n` 110, `-` 45, `0` to `9` 48 to 57,
`"` 34, space 32, tab 9, LF 10, CR 13, `/` 47. -/
def attempt_match (s : List Nat) : match_result × token_kind × Nat :=
  match s with
  | [] => (match_result.incomplete_eof, token_kind.unknown, 0)
  | c :: _ =>
    if c = 91 then (match_result.complete, token_kind.array_begin, 1)
    else if c = 93 then (match_result.complete, token_kind.array_end, 1)
    else if c = 123 then (match_result.complete, token_kind.object_begin, 1)
    else if c = 125 then (match_result.complete, token_kind.object_end, 1)
    else if c = 58 then (match_result.complete, token_kind.object_key_delimiter, 1)
    else if c = 44 then (match_result.complete, token_kind.separator, 1)
    else if c = 116 then match_true s
    else if c = 102 then match_false s
    else if c = 110 then match_null s
    else if c = 45 ∨ c = 48 ∨ c = 49 ∨ c = 50 ∨ c = 51 ∨ c = 52 ∨ c = 53 ∨ c = 54
        ∨ c = 55 ∨ c = 56 ∨ c = 57 then match_number s
    else if c = 34 then match_string s
    else if c = 32 ∨ c = 9 ∨ c = 10 ∨ c = 13 then match_whitespace s
    else if c = 47 then match_comment s
    else (match_result.unmatched, token_kind.unknown, 1)

/-! ## Notions used to state and prove the properties -/

/-- Every success of `m` advances the index by at least `k` and stays inside the input: the
index reached plus the number of bytes left is constant. -/
def Adv (k : Nat) (m : Matcher) : Prop :=
  ∀ x y, y ∈ m x → x.1 + k ≤ y.1 ∧ y.1 + y.2.length = x.1 + x.2.length

/-- The group `-?[0-9]+(\.[0-9]+)?`, which `re_number` holds twice: as the mantissa and after
the exponent character. -/
def re_number_mant : Matcher :=
  seq (opt (lit 45)) (seq (plus (cls isDigit)) (opt re_number_frac))

/-- Length of the maximal leading run of digits. -/
def digitsLen (s : List Nat) : Nat := (s.takeWhile isDigit).length

/-- Length of the longest leading `.` digits+, zero when there is none. -/
def fracLen : List Nat → Nat
  | [] => 0
  | c :: t => if c = 46 ∧ digitsLen t ≠ 0 then 1 + digitsLen t else 0

/-- The bytes after the longest leading `.` digits+. -/
def fracRest : List Nat → List Nat
  | [] => []
  | c :: t => if c = 46 ∧ digitsLen t ≠ 0 then t.dropWhile isDigit else c :: t

/-- Length of a leading `-`. -/
def signLen : List Nat → Nat
  | [] => 0
  | c :: _ => if c = 45 then 1 else 0

/-- Length of the greedy scan of `-?` digits+ `(.` digits+`)?`, when there is a digit. -/
def mantLen (s : List Nat) : Option Nat :=
  if digitsLen (s.drop (signLen s)) = 0 then none
  else some (signLen s + digitsLen (s.drop (signLen s))
    + fracLen ((s.drop (signLen s)).dropWhile isDigit))

/-- The bytes after the greedy scan of `mantLen`. -/
def mantRest (s : List Nat) : List Nat :=
  fracRest ((s.drop (signLen s)).dropWhile isDigit)

/-- Length of the greedy scan of a mantissa followed by an optional exponent. -/
def numLen (s : List Nat) : Option Nat :=
  match mantLen s with
  | none => none
  | some n =>
    match mantRest s with
    | [] => some n
    | e :: t =>
      if isExpChar e = true then
        match mantLen t with
        | some n2 => some (n + 1 + n2)
        | none => some n
      else some n

/-- One or more digits. -/
def IsDigits (d : List Nat) : Prop := d ≠ [] ∧ ∀ c ∈ d, isDigit c = true

/-- An optional `-`. -/
def IsOptMinus (w : List Nat) : Prop := w = [] ∨ w = [45]

/-- An optional `.` followed by one or more digits. -/
def IsOptFrac (w : List Nat) : Prop := w = [] ∨ ∃ d, w = 46 :: d ∧ IsDigits d

/-- An optional exponent: `e` or `E`, an optional `-`, one or more digits, an optional
fractional part. -/
def IsOptExp (w : List Nat) : Prop :=
  w = [] ∨ ∃ e sg d f, w = e :: (sg ++ d ++ f) ∧ isExpChar e = true
    ∧ IsOptMinus sg ∧ IsDigits d ∧ IsOptFrac f

/-- The number grammar G in the words of the specification: an optional `-`, one or more
digits, an optional fractional part, an optional exponent. -/
def InG (w : List Nat) : Prop :=
  ∃ sg d f x, w = sg ++ d ++ f ++ x
    ∧ IsOptMinus sg ∧ IsDigits d ∧ IsOptFrac f ∧ IsOptExp x

/-- The words `-?` digits+ `(.` digits+`)?`. -/
def InMant (w : List Nat) : Prop :=
  ∃ sg d f, w = sg ++ d ++ f ∧ IsOptMinus sg ∧ IsDigits d ∧ IsOptFrac f

/-- The kind that the switch of `attempt_match` selects for a first byte. -/
def first_kind (c : Nat) : token_kind :=
  if c = 91 then token_kind.array_begin
  else if c = 93 then token_kind.array_end
  else if c = 123 then token_kind.object_begin
  else if c = 125 then token_kind.object_end
  else if c = 58 then token_kind.object_key_delimiter
  else if c = 44 then token_kind.separator
  else if c = 116 then token_kind.boolean
  else if c = 102 then token_kind.boolean
  else if c = 110 then token_kind.null
  else if c = 45 ∨ isDigit c = true then token_kind.number
  else if c = 34 then token_kind.string
  else if isSpace c = true then token_kind.whitespace
  else if c = 47 then token_kind.comment
  else token_kind.unknown

/-- The group `([^\]|\["\/bfnrt]|\\u[0-9a-fA-F]{4})` of `re_string`. -/
def re_string_unit : Matcher :=
  alt (cls isStringChar) (seq (lit 92) (seq (lit 117) (times 4 (cls isHex))))

/-- One unit of a string body: a single byte of the bracket expression of `re_string`, or the
six bytes backslash, `u` and four hex digits. -/
def IsStringUnit (u : List Nat) : Prop :=
  (∃ c, u = [c] ∧ isStringChar c = true)
  ∨ (∃ h1 h2 h3 h4, u = [92, 117, h1, h2, h3, h4]
      ∧ isHex h1 = true ∧ isHex h2 = true ∧ isHex h3 = true ∧ isHex h4 = true)

/-- The bytes can be split into consecutive units. -/
def IsStringBody (b : List Nat) : Prop :=
  ∃ us : List (List Nat), b = us.flatten ∧ ∀ u ∈ us, IsStringUnit u

/-- The group `([^\*]*|\*[^/])` of `re_comment`. -/
def re_comment_unit : Matcher :=
  alt (star (cls isNotStar)) (seq (lit 42) (cls isNotSlash))

/-- The part `([^\*]*|\*[^/])*\*/` of `re_comment`, which follows `/*`. -/
def re_comment_tail : Matcher :=
  seq (star re_comment_unit) (seq (lit 42) (lit 47))

/-- The walk of `re_comment` over the bytes that follow `/*`: a byte other than `*` is
skipped, `*` followed by a byte other than `/` skips both, `*` followed by `/` ends the
comment.  The value is the number of bytes up to and including that `*/`. -/
def commentEnd : List Nat → Option Nat
  | [] => none
  | [_] => none
  | c :: d :: t =>
    if c = 42 then
      if d = 47 then some 2 else (commentEnd t).map (fun n => n + 2)
    else (commentEnd (d :: t)).map (fun n => n + 1)

/-- Modelled from the spec: the drive loop of the caller (section 4.1, state machine):
while bytes remain, call `attempt_match` on the remaining bytes, record the result and advance
by the returned length; stop at `incomplete_eof`.  The first argument bounds the number of
iterations; `none` is returned when it is used up with bytes still left. -/
def drive : Nat → List Nat → Option (List (match_result × token_kind × Nat))
  | _, [] => some []
  | 0, _ :: _ => none
  | fuel + 1, c :: t =>
    if (attempt_match (c :: t)).1 = match_result.incomplete_eof then
      some [attempt_match (c :: t)]
    else
      (drive fuel ((c :: t).drop (attempt_match (c :: t)).2.2)).map
        (fun rs => attempt_match (c :: t) :: rs)

/-! ## The pattern engine: position bookkeeping and the quantifiers -/

theorem adv_mono {k k2 : Nat} {m : Matcher} (h : Adv k m) (hk : k2 ≤ k) : Adv k2 m := by
  intro x y hy
  have := h x y hy
  omega

theorem adv_cls (p : Nat → Bool) : Adv 1 (cls p) := by
  intro x y hy
  obtain ⟨i, s⟩ := x
  cases s with
  | nil => simp [cls] at hy
  | cons c t =>
    by_cases hp : p c = true
    · simp [cls, hp] at hy
      subst hy
      simp
      omega
    · simp [cls, hp] at hy

theorem adv_lit (c : Nat) : Adv 1 (lit c) := adv_cls _

theorem adv_bol : Adv 0 bol := by
  intro x y hy
  by_cases h : x.1 = 0
  · simp [bol, h] at hy
    subst hy
    simp
  · simp [bol, h] at hy

theorem adv_seq {k1 k2 : Nat} {a b : Matcher} (ha : Adv k1 a) (hb : Adv k2 b) :
    Adv (k1 + k2) (seq a b) := by
  intro x y hy
  simp only [seq, List.mem_flatMap] at hy
  obtain ⟨z, hz, hy⟩ := hy
  have h1 := ha x z hz
  have h2 := hb z y hy
  omega

theorem adv_alt {k : Nat} {a b : Matcher} (ha : Adv k a) (hb : Adv k b) : Adv k (alt a b) := by
  intro x y hy
  simp only [alt, List.mem_append] at hy
  rcases hy with hy | hy
  · exact ha x y hy
  · exact hb x y hy

theorem adv_repeatMatcher {m : Matcher} (hm : Adv 0 m) (fuel min : Nat) (max : Option Nat) :
    Adv 0 (repeatMatcher m fuel min max) := by
  induction fuel generalizing min max with
  | zero => intro x y hy; simp [repeatMatcher] at hy
  | succ f ih =>
    intro x y hy
    simp only [repeatMatcher] at hy
    have key : ∀ z ∈ m x, y ∈ (if min = 0 ∧ z.1 = x.1 then []
        else repeatMatcher m f (min - 1) (max.map (· - 1)) z) →
        x.1 + 0 ≤ y.1 ∧ y.1 + y.2.length = x.1 + x.2.length := by
      intro z hz hy
      split at hy
      · simp at hy
      · have h1 := hm x z hz
        have h2 := ih (min - 1) (max.map (· - 1)) z y hy
        omega
    split at hy
    · simp at hy
      subst hy
      simp
    · split at hy
      · simp only [List.mem_flatMap] at hy
        obtain ⟨z, hz, hy⟩ := hy
        exact key z hz hy
      · simp only [List.mem_append, List.mem_flatMap, List.mem_singleton] at hy
        rcases hy with ⟨z, hz, hy⟩ | hy
        · exact key z hz hy
        · subst hy
          simp

theorem adv_rep {m : Matcher} (hm : Adv 0 m) (min : Nat) (max : Option Nat) :
    Adv 0 (rep m min max) := by
  intro x y hy
  exact adv_repeatMatcher hm _ min max x y hy

/-- The recursion bound of `repeatMatcher` is immaterial once it is at least `min` plus the
number of bytes left plus one: the bound chosen by `rep` is never exhausted. -/
theorem repeatMatcher_fuel {m : Matcher} (hm : Adv 0 m) (f1 f2 min : Nat) (max : Option Nat)
    (x : State) (h1 : min + x.2.length + 1 ≤ f1) (h2 : min + x.2.length + 1 ≤ f2) :
    repeatMatcher m f1 min max x = repeatMatcher m f2 min max x := by
  induction f1 generalizing f2 min max x with
  | zero => omega
  | succ f ih =>
    cases f2 with
    | zero => omega
    | succ g =>
      simp only [repeatMatcher]
      have key : ∀ z ∈ m x,
          (if min = 0 ∧ z.1 = x.1 then []
            else repeatMatcher m f (min - 1) (max.map (· - 1)) z) =
          (if min = 0 ∧ z.1 = x.1 then []
            else repeatMatcher m g (min - 1) (max.map (· - 1)) z) := by
        intro z hz
        split
        · rfl
        · rename_i hne
          have hz2 := hm x z hz
          apply ih
          · by_cases h0 : min = 0
            · have : z.1 ≠ x.1 := fun h => hne ⟨h0, h⟩
              omega
            · omega
          · by_cases h0 : min = 0
            · have : z.1 ≠ x.1 := fun h => hne ⟨h0, h⟩
              omega
            · omega
      rw [List.flatMap_congr key]

/-- The defining equation of RepeatMatcher, free of the recursion bound. -/
theorem rep_unfold {m : Matcher} (hm : Adv 0 m) (min : Nat) (max : Option Nat) (x : State) :
    rep m min max x =
      if max = some 0 then [x]
      else if min ≠ 0 then
        (m x).flatMap (fun y => rep m (min - 1) (max.map (· - 1)) y)
      else
        (m x).flatMap (fun y => if y.1 = x.1 then [] else rep m 0 (max.map (· - 1)) y)
          ++ [x] := by
  conv_lhs => unfold rep; simp only [repeatMatcher]
  split
  · rfl
  · by_cases h0 : min = 0
    · subst h0
      simp only [ne_eq, not_true_eq_false, if_false, true_and, Nat.zero_sub]
      congr 1
      apply List.flatMap_congr
      intro z hz
      split
      · rfl
      · rename_i hne
        have hz2 := hm x z hz
        unfold rep
        apply repeatMatcher_fuel hm <;> omega
    · simp only [ne_eq, h0, not_false_eq_true, if_true, false_and, if_false]
      apply List.flatMap_congr
      intro z hz
      have hz2 := hm x z hz
      unfold rep
      apply repeatMatcher_fuel hm <;> omega

theorem star_unfold {m : Matcher} (hm : Adv 0 m) (x : State) :
    star m x = (m x).flatMap (fun y => if y.1 = x.1 then [] else star m y) ++ [x] := by
  unfold star
  rw [rep_unfold hm]
  simp

theorem plus_unfold {m : Matcher} (hm : Adv 0 m) (x : State) :
    plus m x = (m x).flatMap (star m) := by
  unfold plus star
  rw [rep_unfold hm]
  simp

theorem opt_unfold {m : Matcher} (hm : Adv 1 m) (x : State) : opt m x = m x ++ [x] := by
  have h0 : Adv 0 m := adv_mono hm (by omega)
  unfold opt
  rw [rep_unfold h0]
  simp only [Option.some.injEq, OfNat.ofNat_ne_zero, if_false, ne_eq, not_true_eq_false,
    Option.map_some', Nat.sub_self]
  have key : ∀ z ∈ m x, (if z.1 = x.1 then [] else rep m 0 (some 0) z) = [z] := by
    intro z hz
    have := hm x z hz
    rw [if_neg (by omega), rep_unfold h0]
    simp
  rw [List.flatMap_congr key]
  simp

theorem times_zero (m : Matcher) (x : State) : times 0 m x = [x] := by
  simp [times, rep, repeatMatcher]

theorem times_succ {m : Matcher} (hm : Adv 0 m) (n : Nat) (x : State) :
    times (n + 1) m x = (m x).flatMap (times n m) := by
  unfold times
  rw [rep_unfold hm]
  simp

theorem adv_star {m : Matcher} (hm : Adv 0 m) : Adv 0 (star m) := adv_rep hm 0 none

theorem adv_opt {m : Matcher} (hm : Adv 0 m) : Adv 0 (opt m) := adv_rep hm 0 (some 1)

theorem adv_times {m : Matcher} (hm : Adv 0 m) (n : Nat) : Adv 0 (times n m) :=
  adv_rep hm n (some n)

theorem adv_plus {k : Nat} {m : Matcher} (hm : Adv k m) : Adv k (plus m) := by
  have h0 : Adv 0 m := adv_mono hm (by omega)
  intro x y hy
  rw [plus_unfold h0] at hy
  exact adv_seq hm (adv_star h0) x y hy

/-! ## Quantified bracket expressions -/

theorem cls_nil (p : Nat → Bool) (i : Nat) : cls p (i, []) = [] := rfl

theorem cls_cons (p : Nat → Bool) (i c : Nat) (t : List Nat) :
    cls p (i, c :: t) = if p c = true then [(i + 1, t)] else [] := rfl

theorem star_cls_nil (p : Nat → Bool) (i : Nat) : star (cls p) (i, []) = [(i, [])] := by
  rw [star_unfold (adv_mono (adv_cls p) (Nat.zero_le 1))]
  simp [cls_nil]

theorem star_cls_cons (p : Nat → Bool) (i c : Nat) (t : List Nat) :
    star (cls p) (i, c :: t) =
      if p c = true then star (cls p) (i + 1, t) ++ [(i, c :: t)] else [(i, c :: t)] := by
  rw [star_unfold (adv_mono (adv_cls p) (Nat.zero_le 1)), cls_cons]
  by_cases h : p c = true <;> simp [h]

theorem plus_cls_nil (p : Nat → Bool) (i : Nat) : plus (cls p) (i, []) = [] := by
  rw [plus_unfold (adv_mono (adv_cls p) (Nat.zero_le 1))]
  simp [cls_nil]

theorem plus_cls_cons (p : Nat → Bool) (i c : Nat) (t : List Nat) :
    plus (cls p) (i, c :: t) = if p c = true then star (cls p) (i + 1, t) else [] := by
  rw [plus_unfold (adv_mono (adv_cls p) (Nat.zero_le 1)), cls_cons]
  by_cases h : p c = true <;> simp [h]

/-- The preferred match of a starred bracket expression is the maximal run. -/
theorem star_cls_head (p : Nat → Bool) (i : Nat) (s : List Nat) :
    (star (cls p) (i, s)).head? = some (i + (s.takeWhile p).length, s.dropWhile p) := by
  induction s generalizing i with
  | nil => simp [star_cls_nil]
  | cons c t ih =>
    rw [star_cls_cons]
    by_cases h : p c = true
    · simp only [h, if_true, List.head?_append, ih, List.takeWhile_cons_of_pos,
        List.dropWhile_cons_of_pos, List.length_cons, Option.or_some]
      congr 2
      omega
    · simp [h]

/-- The preferred match of a bracket expression under `+` is the maximal run, when that run
is not empty; otherwise there is no match. -/
theorem plus_cls_head (p : Nat → Bool) (i : Nat) (s : List Nat) :
    (plus (cls p) (i, s)).head? =
      if (s.takeWhile p).length = 0 then none
      else some (i + (s.takeWhile p).length, s.dropWhile p) := by
  cases s with
  | nil => simp [plus_cls_nil]
  | cons c t =>
    rw [plus_cls_cons]
    by_cases h : p c = true
    · simp only [h, if_true, star_cls_head, List.takeWhile_cons_of_pos,
        List.dropWhile_cons_of_pos, List.length_cons]
      rw [if_neg (by omega)]
      congr 2
      omega
    · simp [h]

theorem getElem?_length_takeWhile (p : Nat → Bool) (s : List Nat) (b : Nat)
    (h : s[(s.takeWhile p).length]? = some b) : p b = false := by
  induction s with
  | nil => simp at h
  | cons c t ih =>
    by_cases hc : p c = true
    · rw [List.takeWhile_cons_of_pos hc] at h
      simp only [List.length_cons, List.getElem?_cons_succ] at h
      exact ih h
    · rw [List.takeWhile_cons_of_neg hc] at h
      simp at h
      subst h
      simpa using hc

/-! ## The search -/

theorem searchFrom_bol_pos (m : Matcher) (i : Nat) (s : List Nat) (hi : i ≠ 0) :
    searchFrom (seq bol m) i s = none := by
  induction s generalizing i with
  | nil => simp [searchFrom, seq, bol, hi]
  | cons c t ih =>
    rw [searchFrom]
    simp [seq, bol, hi, ih]

/-- A pattern that starts with `^` is matched at `begin` or not at all: the search reports the
preferred match of the rest of the pattern from index `0`. -/
theorem regex_search_bol (m : Matcher) (s : List Nat) :
    regex_search s (seq bol m) = ((m (0, s)).head?).map (fun y => (0, y.1)) := by
  unfold regex_search
  have h : seq bol m (0, s) = m (0, s) := by simp [seq, bol]
  cases s with
  | nil =>
    rw [searchFrom, h]
    cases hh : (m (0, [])).head? <;> simp
  | cons c t =>
    rw [searchFrom, h]
    cases hh : (m (0, c :: t)).head? <;> simp [searchFrom_bol_pos]

theorem searchFrom_bound {k : Nat} {m : Matcher} (hm : Adv k m) (i : Nat) (s : List Nat)
    (p len : Nat) (h : searchFrom m i s = some (p, len)) :
    k ≤ len ∧ i ≤ p ∧ p + len ≤ i + s.length := by
  induction s generalizing i with
  | nil =>
    rw [searchFrom] at h
    cases hh : (m (i, [])).head? with
    | none => simp [hh] at h
    | some y =>
      simp [hh] at h
      have := hm (i, []) y (List.mem_of_mem_head? hh)
      simp at this
      omega
  | cons c t ih =>
    rw [searchFrom] at h
    cases hh : (m (i, c :: t)).head? with
    | none =>
      simp [hh] at h
      have := ih (i + 1) h
      simp
      omega
    | some y =>
      simp [hh] at h
      have := hm (i, c :: t) y (List.mem_of_mem_head? hh)
      simp at this
      simp
      omega

theorem regex_search_bound {k : Nat} {m : Matcher} (hm : Adv k m) (s : List Nat)
    (p len : Nat) (h : regex_search s m = some (p, len)) : k ≤ len ∧ len ≤ s.length := by
  have := searchFrom_bound hm 0 s p len h
  omega

theorem adv_re_number_frac : Adv 1 re_number_frac :=
  adv_mono (adv_seq (adv_lit 46) (adv_plus (adv_cls isDigit))) (by omega)

theorem adv_re_number : Adv 1 re_number :=
  adv_mono
    (adv_seq adv_bol (adv_seq (adv_opt (adv_mono (adv_lit 45) (Nat.zero_le 1)))
      (adv_seq (adv_plus (adv_cls isDigit))
        (adv_seq (adv_opt (adv_mono adv_re_number_frac (Nat.zero_le 1)))
          (adv_opt (adv_mono
            (adv_seq (adv_cls isExpChar) (adv_seq (adv_opt (adv_mono (adv_lit 45) (Nat.zero_le 1)))
              (adv_seq (adv_plus (adv_cls isDigit))
                (adv_opt (adv_mono adv_re_number_frac (Nat.zero_le 1))))))
            (Nat.zero_le _))))))) (by omega)

theorem adv_string_unit :
    Adv 1 (alt (cls isStringChar) (seq (lit 92) (seq (lit 117) (times 4 (cls isHex))))) :=
  adv_alt (adv_cls isStringChar)
    (adv_mono (adv_seq (adv_lit 92) (adv_seq (adv_lit 117)
      (adv_times (adv_mono (adv_cls isHex) (Nat.zero_le 1)) 4))) (by omega))

theorem adv_re_string : Adv 2 re_string :=
  adv_mono (adv_seq adv_bol (adv_seq (adv_lit 34)
    (adv_seq (adv_star (adv_mono adv_string_unit (Nat.zero_le 1))) (adv_lit 34)))) (by omega)

theorem adv_re_whitespace : Adv 1 re_whitespace :=
  adv_mono (adv_seq adv_bol (adv_plus (adv_cls isSpace))) (by omega)

theorem adv_comment_unit :
    Adv 0 (alt (star (cls isNotStar)) (seq (lit 42) (cls isNotSlash))) :=
  adv_alt (adv_star (adv_mono (adv_cls isNotStar) (Nat.zero_le 1)))
    (adv_mono (adv_seq (adv_lit 42) (adv_cls isNotSlash)) (Nat.zero_le _))

theorem adv_re_comment : Adv 4 re_comment :=
  adv_mono (adv_seq adv_bol (adv_seq (adv_lit 47) (adv_seq (adv_lit 42)
    (adv_seq (adv_star adv_comment_unit) (adv_seq (adv_lit 42) (adv_lit 47)))))) (by omega)

/-! ## The number pattern -/

theorem seq_assoc (a b c : Matcher) : seq (seq a b) c = seq a (seq b c) := by
  funext x
  show ((a x).flatMap b).flatMap c = (a x).flatMap (fun y => (b y).flatMap c)
  exact List.flatMap_assoc _ _ _

theorem head?_flatMap_nil {f : State → List State} {l : List State} (h : l.head? = none) :
    (l.flatMap f).head? = none := by
  cases l with
  | nil => rfl
  | cons a l => simp at h

theorem head?_flatMap_some {f : State → List State} {l : List State} {a b : State}
    (h : l.head? = some a) (hb : (f a).head? = some b) : (l.flatMap f).head? = some b := by
  cases l with
  | nil => simp at h
  | cons a2 l =>
    simp at h
    subst h
    simp [hb]

theorem drop_length_takeWhile (p : Nat → Bool) (s : List Nat) :
    s.drop (s.takeWhile p).length = s.dropWhile p := by
  induction s with
  | nil => rfl
  | cons c t ih =>
    by_cases h : p c = true
    · simp [h, ih]
    · simp [h]

theorem re_number_frac_head (i : Nat) (s : List Nat) :
    (re_number_frac (i, s)).head? =
      if fracLen s = 0 then none else some (i + fracLen s, fracRest s) := by
  cases s with
  | nil => simp [re_number_frac, seq, lit, cls_nil, fracLen]
  | cons c t =>
    by_cases hc : c = 46
    · subst hc
      have h1 : re_number_frac (i, 46 :: t) = plus (cls isDigit) (i + 1, t) := by
        simp [re_number_frac, seq, lit, cls_cons]
      rw [h1, plus_cls_head]
      by_cases hd : digitsLen t = 0
      · have hd2 : (List.takeWhile isDigit t).length = 0 := hd
        simp [fracLen, hd, hd2]
      · have hd2 : ¬ (List.takeWhile isDigit t).length = 0 := hd
        simp only [fracLen, fracRest, hd, hd2, digitsLen, if_false, ne_eq, not_false_eq_true,
          and_self, if_true, true_and]
        rw [if_neg (by omega)]
        congr 2
        omega
    · have h1 : re_number_frac (i, c :: t) = [] := by
        simp [re_number_frac, seq, lit, cls_cons, hc]
      simp [h1, fracLen, hc]

theorem opt_re_number_frac_head (i : Nat) (s : List Nat) :
    (opt re_number_frac (i, s)).head? = some (i + fracLen s, fracRest s) := by
  rw [opt_unfold adv_re_number_frac, List.head?_append, re_number_frac_head]
  by_cases h : fracLen s = 0
  · have h2 : fracRest s = s := by
      cases s with
      | nil => rfl
      | cons c t =>
        simp only [fracLen] at h
        by_cases hc : c = 46 ∧ digitsLen t ≠ 0
        · rw [if_pos hc] at h
          omega
        · simp only [fracRest, if_neg hc]
    simp [h, h2]
  · simp [h]

theorem digits_optfrac_head (i : Nat) (s : List Nat) :
    (seq (plus (cls isDigit)) (opt re_number_frac) (i, s)).head? =
      if digitsLen s = 0 then none
      else some (i + digitsLen s + fracLen (s.dropWhile isDigit),
        fracRest (s.dropWhile isDigit)) := by
  have hp := plus_cls_head isDigit i s
  by_cases hd : digitsLen s = 0
  · have hd2 : (List.takeWhile isDigit s).length = 0 := hd
    rw [if_pos hd2] at hp
    rw [if_pos hd]
    exact head?_flatMap_nil hp
  · have hd2 : ¬ (List.takeWhile isDigit s).length = 0 := hd
    rw [if_neg hd2] at hp
    rw [if_neg hd]
    exact head?_flatMap_some hp (opt_re_number_frac_head _ _)

theorem re_number_mant_head (i : Nat) (s : List Nat) :
    (re_number_mant (i, s)).head? = (mantLen s).map (fun n => (i + n, mantRest s)) := by
  have hopt : opt (lit 45) (i, s) = lit 45 (i, s) ++ [(i, s)] := opt_unfold (adv_lit 45) _
  have hmant : re_number_mant (i, s) =
      (lit 45 (i, s)).flatMap (seq (plus (cls isDigit)) (opt re_number_frac))
        ++ seq (plus (cls isDigit)) (opt re_number_frac) (i, s) := by
    show (opt (lit 45) (i, s)).flatMap (seq (plus (cls isDigit)) (opt re_number_frac)) = _
    rw [hopt, List.flatMap_append, List.flatMap_singleton]
  cases s with
  | nil =>
    rw [hmant]
    simp [lit, cls_nil, seq, plus_cls_nil, mantLen, signLen, digitsLen]
  | cons c t =>
    by_cases hc : c = 45
    · subst hc
      have h2 : seq (plus (cls isDigit)) (opt re_number_frac) (i, 45 :: t) = [] := by
        simp [seq, plus_cls_cons, isDigit]
      rw [hmant, h2]
      simp only [lit, cls_cons, beq_self_eq_true, if_true, List.flatMap_cons,
        List.flatMap_nil, List.append_nil, digits_optfrac_head]
      by_cases hd : digitsLen t = 0
      · simp [mantLen, signLen, hd]
      · simp only [hd, if_false, mantLen, signLen, if_true, List.drop_succ_cons, List.drop_zero,
          Option.map_some', mantRest]
        congr 2
        omega
    · rw [hmant]
      simp only [lit, cls_cons, beq_iff_eq, hc, if_false, List.flatMap_nil, List.nil_append,
        digits_optfrac_head]
      by_cases hd : digitsLen (c :: t) = 0
      · simp [mantLen, signLen, hc, hd]
      · simp only [hd, if_false, mantLen, signLen, hc, List.drop_zero, Option.map_some',
          mantRest]
        congr 2
        omega

theorem adv_re_number_mant : Adv 0 re_number_mant :=
  adv_mono (adv_seq (adv_opt (adv_mono (adv_lit 45) (Nat.zero_le 1)))
    (adv_seq (adv_plus (adv_cls isDigit)) (adv_opt (adv_mono adv_re_number_frac
      (Nat.zero_le 1))))) (Nat.zero_le _)

theorem adv_re_number_exp : Adv 1 (seq (cls isExpChar) re_number_mant) :=
  adv_seq (adv_cls isExpChar) adv_re_number_mant

/-- The pattern `re_number`, grouped: `^`, a mantissa, an optional exponent character with a
second mantissa. -/
theorem re_number_eq :
    re_number = seq bol (seq re_number_mant (opt (seq (cls isExpChar) re_number_mant))) := by
  unfold re_number re_number_mant
  simp only [seq_assoc]

theorem re_number_body_head (i : Nat) (s : List Nat) :
    ((seq re_number_mant (opt (seq (cls isExpChar) re_number_mant)) (i, s)).head?).map
      Prod.fst = (numLen s).map (fun n => i + n) := by
  have hm := re_number_mant_head i s
  cases hl : mantLen s with
  | none =>
    rw [hl] at hm
    simp only [Option.map_none'] at hm
    simp only [seq, head?_flatMap_nil hm, numLen, hl, Option.map_none']
  | some n =>
    rw [hl] at hm
    simp only [Option.map_some'] at hm
    have hexp : ∀ z : State, (opt (seq (cls isExpChar) re_number_mant) z).head? =
        some (((seq (cls isExpChar) re_number_mant) z).head?.getD z) := by
      intro z
      rw [opt_unfold adv_re_number_exp, List.head?_append]
      cases (seq (cls isExpChar) re_number_mant z).head? <;> simp
    have := head?_flatMap_some hm (hexp _)
    simp only [seq] at this ⊢
    rw [this]
    simp only [numLen, hl]
    cases hr : mantRest s with
    | nil => simp [cls_nil]
    | cons e t =>
      by_cases he : isExpChar e = true
      · simp only [cls_cons, he, if_true, List.flatMap_cons, List.flatMap_nil, List.append_nil,
          re_number_mant_head]
        cases mantLen t with
        | none => simp
        | some n2 =>
          simp
          omega
      · simp [cls_cons, he]

theorem regex_search_re_number (s : List Nat) :
    regex_search s re_number = (numLen s).map (fun n => (0, n)) := by
  rw [re_number_eq, regex_search_bol]
  have := re_number_body_head 0 s
  cases hn : numLen s with
  | none =>
    rw [hn] at this
    simp only [Option.map_none', Option.map_eq_none'] at this
    simp [this]
  | some n =>
    rw [hn] at this
    simp only [Option.map_some', Option.map_eq_some'] at this
    obtain ⟨y, hy, hy1⟩ := this
    simp [hy, hy1]

/-! ## The greedy scan and the grammar G -/

theorem isDigit_of_isExpChar {e : Nat} (h : isExpChar e = true) : isDigit e = false := by
  simp only [isExpChar, Bool.or_eq_true, beq_iff_eq] at h
  simp only [isDigit, Bool.and_eq_false_iff, decide_eq_false_iff_not]
  omega

theorem ne_46_of_isExpChar {e : Nat} (h : isExpChar e = true) : e ≠ 46 := by
  simp only [isExpChar, Bool.or_eq_true, beq_iff_eq] at h
  omega

theorem ne_45_of_isDigit {c : Nat} (h : isDigit c = true) : c ≠ 45 := by
  simp only [isDigit, Bool.and_eq_true, decide_eq_true_eq] at h
  omega

theorem digitsLen_append (d u : List Nat) (hd : ∀ c ∈ d, isDigit c = true) :
    digitsLen (d ++ u) = d.length + digitsLen u := by
  unfold digitsLen
  rw [List.takeWhile_append_of_pos hd]
  simp

theorem digitsLen_cons_of_not (e : Nat) (t : List Nat) (h : isDigit e = false) :
    digitsLen (e :: t) = 0 := by
  simp [digitsLen, h]

theorem dropWhile_cons_of_not (e : Nat) (t : List Nat) (h : isDigit e = false) :
    (e :: t).dropWhile isDigit = e :: t := by
  simp [h]

theorem isDigits_takeWhile (s : List Nat) (h : digitsLen s ≠ 0) :
    IsDigits (s.takeWhile isDigit) := by
  constructor
  · intro h2
    simp [digitsLen, h2] at h
  · intro c hc
    exact (List.mem_takeWhile_imp hc)

theorem frac_sound (s : List Nat) :
    ∃ f, s = f ++ fracRest s ∧ f.length = fracLen s ∧ IsOptFrac f := by
  cases s with
  | nil => exact ⟨[], rfl, rfl, Or.inl rfl⟩
  | cons c t =>
    by_cases hc : c = 46 ∧ digitsLen t ≠ 0
    · refine ⟨46 :: t.takeWhile isDigit, ?_, ?_, Or.inr ⟨_, rfl, isDigits_takeWhile t hc.2⟩⟩
      · simp [fracRest, hc]
      · simp only [fracLen]
        rw [if_pos hc]
        simp only [List.length_cons, digitsLen]
        omega
    · exact ⟨[], by simp [fracRest, hc], by simp [fracLen, hc], Or.inl rfl⟩

theorem frac_agree (f u : List Nat) (hf : IsOptFrac f) :
    f.length ≤ fracLen (f ++ u)
    ∧ ∀ e t, u = e :: t → isExpChar e = true →
        fracLen (f ++ u) = f.length ∧ fracRest (f ++ u) = u := by
  rcases hf with hf | ⟨d, hf, hd⟩
  · subst hf
    refine ⟨by simp, ?_⟩
    intro e t hu he
    subst hu
    have := ne_46_of_isExpChar he
    simp [fracLen, fracRest, this]
  · subst hf
    have hlen : digitsLen (d ++ u) = d.length + digitsLen u := digitsLen_append d u hd.2
    have hpos : d.length ≠ 0 := by
      intro h
      exact hd.1 (List.length_eq_zero.mp h)
    have hne : digitsLen (d ++ u) ≠ 0 := by omega
    refine ⟨?_, ?_⟩
    · simp only [List.cons_append, fracLen, hne, ne_eq, not_false_eq_true, and_self, if_true,
        List.length_cons]
      omega
    · intro e t hu he
      subst hu
      have h0 := digitsLen_cons_of_not e t (isDigit_of_isExpChar he)
      constructor
      · simp only [List.cons_append, fracLen, hne, ne_eq, not_false_eq_true, and_self,
          if_true, List.length_cons]
        omega
      · simp only [List.cons_append, fracRest, hne, ne_eq, not_false_eq_true, and_self,
          if_true]
        rw [List.dropWhile_append_of_pos hd.2]
        exact dropWhile_cons_of_not e t (isDigit_of_isExpChar he)

theorem sign_sound (s : List Nat) :
    ∃ sg, s = sg ++ s.drop (signLen s) ∧ sg.length = signLen s ∧ IsOptMinus sg := by
  cases s with
  | nil => exact ⟨[], rfl, rfl, Or.inl rfl⟩
  | cons c t =>
    by_cases hc : c = 45
    · subst hc
      exact ⟨[45], by simp [signLen], by simp [signLen], Or.inr rfl⟩
    · exact ⟨[], by simp [signLen, hc], by simp [signLen, hc], Or.inl rfl⟩

theorem sign_agree (sg d v : List Nat) (hsg : IsOptMinus sg) (hd : IsDigits d) :
    signLen (sg ++ d ++ v) = sg.length ∧ (sg ++ d ++ v).drop (signLen (sg ++ d ++ v)) = d ++ v := by
  rcases hsg with h | h
  · subst h
    obtain ⟨hne, hall⟩ := hd
    cases d with
    | nil => exact absurd rfl hne
    | cons c0 d2 =>
      have := ne_45_of_isDigit (hall c0 (by simp))
      simp [signLen, this]
  · subst h
    simp [signLen]

theorem mant_sound (s : List Nat) (n : Nat) (h : mantLen s = some n) :
    ∃ w, s = w ++ mantRest s ∧ w.length = n ∧ InMant w := by
  unfold mantLen at h
  by_cases hd : digitsLen (s.drop (signLen s)) = 0
  · simp [hd] at h
  · rw [if_neg hd] at h
    simp only [Option.some.injEq] at h
    obtain ⟨sg, hs1, hsl, hsg⟩ := sign_sound s
    obtain ⟨f, hf1, hfl, hf⟩ := frac_sound ((s.drop (signLen s)).dropWhile isDigit)
    refine ⟨sg ++ (s.drop (signLen s)).takeWhile isDigit ++ f, ?_, ?_,
      ⟨sg, _, f, rfl, hsg, isDigits_takeWhile _ hd, hf⟩⟩
    · unfold mantRest
      rw [List.append_assoc, List.append_assoc, ← hf1, List.takeWhile_append_dropWhile]
      exact hs1
    · simp only [List.length_append, hsl, hfl]
      exact h

theorem mant_agree (w u : List Nat) (hw : InMant w) :
    ∃ n, mantLen (w ++ u) = some n ∧ w.length ≤ n
      ∧ ∀ e t, u = e :: t → isExpChar e = true → n = w.length ∧ mantRest (w ++ u) = u := by
  obtain ⟨sg, d, f, hw, hsg, hd, hf⟩ := hw
  subst hw
  have hsign := sign_agree sg d (f ++ u) hsg hd
  have heq : sg ++ d ++ f ++ u = sg ++ d ++ (f ++ u) := by simp
  have hdl : digitsLen (d ++ (f ++ u)) = d.length + digitsLen (f ++ u) :=
    digitsLen_append d _ hd.2
  have hdrop : (d ++ (f ++ u)).dropWhile isDigit = (f ++ u).dropWhile isDigit :=
    List.dropWhile_append_of_pos hd.2
  have hpos : d.length ≠ 0 := fun h => hd.1 (List.length_eq_zero.mp h)
  have hml : mantLen (sg ++ d ++ f ++ u) = some (sg.length + (d.length + digitsLen (f ++ u))
      + fracLen ((f ++ u).dropWhile isDigit)) := by
    rw [heq]
    unfold mantLen
    rw [hsign.2, hsign.1, hdl, hdrop, if_neg (by omega)]
  have hmr : mantRest (sg ++ d ++ f ++ u) = fracRest ((f ++ u).dropWhile isDigit) := by
    rw [heq]
    unfold mantRest
    rw [hsign.2, hdrop]
  refine ⟨_, hml, ?_, ?_⟩
  · rcases hf with hf0 | ⟨fd, hf1, hfd⟩
    · subst hf0
      simp only [List.append_nil, List.length_append, List.nil_append]
      omega
    · have h46 : isDigit 46 = false := by decide
      have h1 : digitsLen (f ++ u) = 0 := by
        rw [hf1]
        exact digitsLen_cons_of_not 46 _ h46
      have h2 : (f ++ u).dropWhile isDigit = f ++ u := by
        rw [hf1]
        exact dropWhile_cons_of_not 46 _ h46
      rw [h1, h2]
      have := (frac_agree f u (Or.inr ⟨fd, hf1, hfd⟩)).1
      simp only [List.length_append]
      omega
  · intro e t hu he
    have hfa := (frac_agree f u hf).2 e t hu he
    have h1 : digitsLen (f ++ u) = 0 ∧ (f ++ u).dropWhile isDigit = f ++ u := by
      rcases hf with hf0 | ⟨fd, hf1, hfd⟩
      · subst hf0
        subst hu
        exact ⟨digitsLen_cons_of_not e t (isDigit_of_isExpChar he),
          dropWhile_cons_of_not e t (isDigit_of_isExpChar he)⟩
      · have h46 : isDigit 46 = false := by decide
        rw [hf1]
        exact ⟨digitsLen_cons_of_not 46 _ h46, dropWhile_cons_of_not 46 _ h46⟩
    rw [hmr, h1.1, h1.2, hfa.1, hfa.2]
    refine ⟨?_, rfl⟩
    simp only [List.length_append]
    omega

theorem inG_of_mant (m : List Nat) (hm : InMant m) : InG m := by
  obtain ⟨sg, d, f, hw, hsg, hd, hf⟩ := hm
  exact ⟨sg, d, f, [], by simp [hw], hsg, hd, hf, Or.inl rfl⟩

theorem inG_of_mant_exp (m m2 : List Nat) (e : Nat) (hm : InMant m) (he : isExpChar e = true)
    (hm2 : InMant m2) : InG (m ++ e :: m2) := by
  obtain ⟨sg, d, f, hw, hsg, hd, hf⟩ := hm
  obtain ⟨sg2, d2, f2, hw2, hsg2, hd2, hf2⟩ := hm2
  exact ⟨sg, d, f, e :: m2, by simp [hw], hsg, hd, hf,
    Or.inr ⟨e, sg2, d2, f2, by simp [hw2], he, hsg2, hd2, hf2⟩⟩

/-- The greedy scan ends on a word of G. -/
theorem num_sound (s : List Nat) (L : Nat) (h : numLen s = some L) :
    ∃ w, w <+: s ∧ w.length = L ∧ InG w := by
  unfold numLen at h
  cases hl : mantLen s with
  | none => simp [hl] at h
  | some n =>
    obtain ⟨w, hs, hwl, hw⟩ := mant_sound s n hl
    have plain : L = n → ∃ w, w <+: s ∧ w.length = L ∧ InG w := by
      intro hLn
      exact ⟨w, ⟨_, hs.symm⟩, by omega, inG_of_mant w hw⟩
    simp only [hl] at h
    cases hr : mantRest s with
    | nil =>
      simp only [hr, Option.some.injEq] at h
      exact plain h.symm
    | cons e t =>
      simp only [hr] at h
      by_cases he : isExpChar e = true
      · simp only [he, if_true] at h
        cases hl2 : mantLen t with
        | none =>
          simp only [hl2, Option.some.injEq] at h
          exact plain h.symm
        | some n2 =>
          simp only [hl2, Option.some.injEq] at h
          obtain ⟨w2, hs2, hwl2, hw2⟩ := mant_sound t n2 hl2
          refine ⟨w ++ e :: w2, ⟨mantRest t, ?_⟩, ?_, inG_of_mant_exp w w2 e hw he hw2⟩
          · rw [hs, hr]
            conv_rhs => rw [hs2]
            simp
          · simp only [List.length_append, List.length_cons]
            omega
      · rw [if_neg he] at h
        simp only [Option.some.injEq] at h
        exact plain h.symm

/-- The greedy scan reaches at least as far as every prefix that is a word of G. -/
theorem num_max (s w : List Nat) (hp : w <+: s) (hw : InG w) :
    ∃ L, numLen s = some L ∧ w.length ≤ L := by
  obtain ⟨u, hu⟩ := hp
  obtain ⟨sg, d, f, x, hw, hsg, hd, hf, hx⟩ := hw
  have hm : InMant (sg ++ d ++ f) := ⟨sg, d, f, rfl, hsg, hd, hf⟩
  obtain ⟨n, hn, hle, hag⟩ := mant_agree (sg ++ d ++ f) (x ++ u) hm
  have hs : s = sg ++ d ++ f ++ (x ++ u) := by
    rw [← hu, hw]
    simp
  rw [← hs] at hn hag
  rcases hx with hx | ⟨e, sg2, d2, f2, hx, he, hsg2, hd2, hf2⟩
  · subst hx
    have hwl : w.length ≤ n := by
      rw [hw]
      simpa using hle
    unfold numLen
    simp only [hn]
    cases mantRest s with
    | nil => exact ⟨n, rfl, hwl⟩
    | cons e t =>
      by_cases he : isExpChar e = true
      · simp only [he, if_true]
        cases mantLen t with
        | none => exact ⟨n, rfl, hwl⟩
        | some n2 => exact ⟨n + 1 + n2, rfl, by omega⟩
      · simp only [if_neg he]
        exact ⟨n, rfl, hwl⟩
  · have hm2 : InMant (sg2 ++ d2 ++ f2) := ⟨sg2, d2, f2, rfl, hsg2, hd2, hf2⟩
    have hxu : x ++ u = e :: (sg2 ++ d2 ++ f2 ++ u) := by rw [hx]; simp
    obtain ⟨hn1, hr1⟩ := hag e (sg2 ++ d2 ++ f2 ++ u) hxu he
    obtain ⟨n2, hn2, hle2, -⟩ := mant_agree (sg2 ++ d2 ++ f2) u hm2
    rw [hxu] at hr1
    unfold numLen
    simp only [hn, hr1, he, if_true, hn2]
    refine ⟨_, rfl, ?_⟩
    rw [hw, hx]
    simp only [List.length_append, List.length_cons] at hle hle2 hn1 ⊢
    omega

theorem match_number_eq (s : List Nat) :
    match_number s =
      match numLen s with
      | some L =>
        (if L = s.length then match_result.complete_eof else match_result.complete,
          token_kind.number, L)
      | none => (match_result.unmatched, token_kind.number, 1) := by
  unfold match_number match_pattern
  rw [regex_search_re_number]
  cases numLen s <;> simp

/-! ## The literal and pattern matchers -/

theorem match_literal_loop_complete (s literal : List Nat) (k len L : Nat) (r : match_result)
    (hlen : len ≤ s.length) (h : match_literal_loop s literal k len = (r, L))
    (hr : r = match_result.complete ∨ r = match_result.complete_eof) :
    L = len + k ∧ len + k ≤ s.length := by
  induction k generalizing len with
  | zero =>
    simp [match_literal_loop] at h
    omega
  | succ k ih =>
    rw [match_literal_loop] at h
    split at h
    · simp at h
      rcases hr with hr | hr <;> simp [hr] at h
    · split at h
      · simp at h
        rcases hr with hr | hr <;> simp [hr] at h
      · have := ih (len + 1) (by omega) h
        omega

theorem match_literal_success (s literal : List Nat) (L : Nat) (r : match_result)
    (hN : 2 ≤ literal.length) (h : match_literal s literal = (r, L))
    (hr : r = match_result.complete ∨ r = match_result.complete_eof) :
    1 ≤ L ∧ L ≤ s.length := by
  unfold match_literal at h
  have := match_literal_loop_complete s literal _ 0 L r (Nat.zero_le _) h hr
  omega

theorem match_pattern_success {k : Nat} {pattern : Matcher} (hp : Adv k pattern)
    (s : List Nat) (L : Nat) (r : match_result) (h : match_pattern s pattern = (r, L))
    (hr : r = match_result.complete ∨ r = match_result.complete_eof) :
    k ≤ L ∧ L ≤ s.length := by
  unfold match_pattern at h
  cases hs : regex_search s pattern with
  | none =>
    simp [hs] at h
    rcases hr with hr | hr <;> simp [hr] at h
  | some m =>
    simp [hs] at h
    have := regex_search_bound hp s m.1 m.2 hs
    omega

theorem match_pattern_of_search (s : List Nat) (pattern : Matcher) (p L : Nat)
    (h : regex_search s pattern = some (p, L)) :
    match_pattern s pattern =
      (if L = s.length then match_result.complete_eof else match_result.complete, L) := by
  simp [match_pattern, h]

/-- The dispatch of `attempt_match` on a first byte that selects the number pattern. -/
theorem attempt_match_number (c : Nat) (t : List Nat) (hc : c = 45 ∨ isDigit c = true) :
    attempt_match (c :: t) = match_number (c :: t) := by
  have hd : c = 45 ∨ c = 48 ∨ c = 49 ∨ c = 50 ∨ c = 51 ∨ c = 52 ∨ c = 53 ∨ c = 54
        ∨ c = 55 ∨ c = 56 ∨ c = 57 := by
    simp [isDigit] at hc
    omega
  have h1 : c ≠ 91 ∧ c ≠ 93 ∧ c ≠ 123 ∧ c ≠ 125 ∧ c ≠ 58 ∧ c ≠ 44 ∧ c ≠ 116 ∧ c ≠ 102
      ∧ c ≠ 110 := by omega
  obtain ⟨a1, a2, a3, a4, a5, a6, a7, a8, a9⟩ := h1
  simp only [attempt_match, a1, a2, a3, a4, a5, a6, a7, a8, a9, if_false, hd, if_true]

theorem attempt_match_string (t : List Nat) :
    attempt_match (34 :: t) = match_string (34 :: t) := by
  simp [attempt_match]

/-- The dispatch of `attempt_match` on a first byte that selects the whitespace pattern. -/
theorem attempt_match_whitespace (c : Nat) (t : List Nat) (hc : isSpace c = true) :
    attempt_match (c :: t) = match_whitespace (c :: t) := by
  have hd : c = 32 ∨ c = 9 ∨ c = 10 ∨ c = 13 := by
    simp [isSpace] at hc
    omega
  have h1 : c ≠ 91 ∧ c ≠ 93 ∧ c ≠ 123 ∧ c ≠ 125 ∧ c ≠ 58 ∧ c ≠ 44 ∧ c ≠ 116 ∧ c ≠ 102
      ∧ c ≠ 110 ∧ c ≠ 34 ∧ ¬ (c = 45 ∨ c = 48 ∨ c = 49 ∨ c = 50 ∨ c = 51 ∨ c = 52 ∨ c = 53
        ∨ c = 54 ∨ c = 55 ∨ c = 56 ∨ c = 57) := by omega
  obtain ⟨a1, a2, a3, a4, a5, a6, a7, a8, a9, a10, a11⟩ := h1
  simp only [attempt_match, a1, a2, a3, a4, a5, a6, a7, a8, a9, a10, a11, if_false, hd,
    if_true]

theorem attempt_match_comment (t : List Nat) :
    attempt_match (47 :: t) = match_comment (47 :: t) := by
  simp [attempt_match]

/-- The switch of `attempt_match` on the first byte, as a case distinction. -/
theorem attempt_match_cons_cases (c : Nat) (t : List Nat) :
    (∃ K, (c = 91 ∨ c = 93 ∨ c = 123 ∨ c = 125 ∨ c = 58 ∨ c = 44)
        ∧ attempt_match (c :: t) = (match_result.complete, K, 1))
    ∨ (c = 116 ∧ attempt_match (c :: t) = match_true (c :: t))
    ∨ (c = 102 ∧ attempt_match (c :: t) = match_false (c :: t))
    ∨ (c = 110 ∧ attempt_match (c :: t) = match_null (c :: t))
    ∨ ((c = 45 ∨ isDigit c = true) ∧ attempt_match (c :: t) = match_number (c :: t))
    ∨ (c = 34 ∧ attempt_match (c :: t) = match_string (c :: t))
    ∨ (isSpace c = true ∧ attempt_match (c :: t) = match_whitespace (c :: t))
    ∨ (c = 47 ∧ attempt_match (c :: t) = match_comment (c :: t))
    ∨ ((c ≠ 91 ∧ c ≠ 93 ∧ c ≠ 123 ∧ c ≠ 125 ∧ c ≠ 58 ∧ c ≠ 44 ∧ c ≠ 116 ∧ c ≠ 102
        ∧ c ≠ 110 ∧ c ≠ 45 ∧ isDigit c = false ∧ c ≠ 34 ∧ isSpace c = false ∧ c ≠ 47)
      ∧ attempt_match (c :: t) = (match_result.unmatched, token_kind.unknown, 1)) := by
  by_cases h1 : c = 91 ∨ c = 93 ∨ c = 123 ∨ c = 125 ∨ c = 58 ∨ c = 44
  · left
    rcases h1 with h | h | h | h | h | h <;> subst h
    · exact ⟨token_kind.array_begin, by simp, by simp [attempt_match]⟩
    · exact ⟨token_kind.array_end, by simp, by simp [attempt_match]⟩
    · exact ⟨token_kind.object_begin, by simp, by simp [attempt_match]⟩
    · exact ⟨token_kind.object_end, by simp, by simp [attempt_match]⟩
    · exact ⟨token_kind.object_key_delimiter, by simp, by simp [attempt_match]⟩
    · exact ⟨token_kind.separator, by simp, by simp [attempt_match]⟩
  by_cases h2 : c = 116
  · subst h2
    exact Or.inr (Or.inl ⟨rfl, by simp [attempt_match]⟩)
  by_cases h3 : c = 102
  · subst h3
    exact Or.inr (Or.inr (Or.inl ⟨rfl, by simp [attempt_match]⟩))
  by_cases h4 : c = 110
  · subst h4
    exact Or.inr (Or.inr (Or.inr (Or.inl ⟨rfl, by simp [attempt_match]⟩)))
  by_cases h5 : c = 45 ∨ isDigit c = true
  · exact Or.inr (Or.inr (Or.inr (Or.inr (Or.inl ⟨h5, attempt_match_number c t h5⟩))))
  by_cases h6 : c = 34
  · subst h6
    exact Or.inr (Or.inr (Or.inr (Or.inr (Or.inr (Or.inl ⟨rfl, attempt_match_string t⟩)))))
  by_cases h7 : isSpace c = true
  · exact Or.inr (Or.inr (Or.inr (Or.inr (Or.inr (Or.inr
      (Or.inl ⟨h7, attempt_match_whitespace c t h7⟩))))))
  by_cases h8 : c = 47
  · subst h8
    exact Or.inr (Or.inr (Or.inr (Or.inr (Or.inr (Or.inr (Or.inr
      (Or.inl ⟨rfl, attempt_match_comment t⟩)))))))
  · refine Or.inr (Or.inr (Or.inr (Or.inr (Or.inr (Or.inr (Or.inr (Or.inr ⟨?_, ?_⟩)))))))
    · simp only [not_or, Bool.not_eq_true] at h1 h5 h7
      simp only [ne_eq]
      tauto
    · have h5b : ¬ (c = 45 ∨ c = 48 ∨ c = 49 ∨ c = 50 ∨ c = 51 ∨ c = 52 ∨ c = 53 ∨ c = 54
          ∨ c = 55 ∨ c = 56 ∨ c = 57) := by
        simp only [isDigit, Bool.and_eq_true, decide_eq_true_eq] at h5
        omega
      have h7b : ¬ (c = 32 ∨ c = 9 ∨ c = 10 ∨ c = 13) := by
        simp only [isSpace, Bool.or_eq_true, beq_iff_eq] at h7
        omega
      simp only [not_or] at h1
      obtain ⟨a1, a2, a3, a4, a5, a6⟩ := h1
      simp only [attempt_match, a1, a2, a3, a4, a5, a6, h2, h3, h4, h5b, h6, h7b, h8,
        if_false]

/-! ## Claims -/

/-- C1: whenever `attempt_match` returns `complete` or `complete_eof`, the returned length
is at least one and at most the size of the byte range. -/
theorem attempt_match_success_length (s : List Nat) (r : match_result) (k : token_kind)
    (L : Nat) (h : attempt_match s = (r, k, L))
    (hr : r = match_result.complete ∨ r = match_result.complete_eof) :
    1 ≤ L ∧ L ≤ s.length := by
  cases s with
  | nil =>
    simp [attempt_match] at h
    rcases hr with hr | hr <;> simp [hr] at h
  | cons c t =>
    have hlit : ∀ literal : List Nat, 2 ≤ literal.length →
        (match_literal (c :: t) literal).1 = r → (match_literal (c :: t) literal).2 = L →
        1 ≤ L ∧ L ≤ (c :: t).length := by
      intro literal hN h1 h2
      exact match_literal_success (c :: t) literal L r hN (Prod.ext h1 h2) hr
    have hpat : ∀ (n : Nat) (pattern : Matcher), Adv (n + 1) pattern →
        (match_pattern (c :: t) pattern).1 = r → (match_pattern (c :: t) pattern).2 = L →
        1 ≤ L ∧ L ≤ (c :: t).length := by
      intro n pattern hp h1 h2
      have := match_pattern_success hp (c :: t) L r (Prod.ext h1 h2) hr
      omega
    rcases attempt_match_cons_cases c t with ⟨K, hK⟩ | hK | hK | hK | hK | hK | hK | hK | hK
    · rw [hK.2] at h
      simp only [Prod.mk.injEq] at h
      obtain ⟨-, -, h3⟩ := h
      subst h3
      simp
    · rw [hK.2] at h
      simp only [match_true, Prod.mk.injEq] at h
      exact hlit _ (by simp [lit_true]) h.1 h.2.2
    · rw [hK.2] at h
      simp only [match_false, Prod.mk.injEq] at h
      exact hlit _ (by simp [lit_false]) h.1 h.2.2
    · rw [hK.2] at h
      simp only [match_null, Prod.mk.injEq] at h
      exact hlit _ (by simp [lit_null]) h.1 h.2.2
    · rw [hK.2] at h
      simp only [match_number, Prod.mk.injEq] at h
      exact hpat 0 _ adv_re_number h.1 h.2.2
    · rw [hK.2] at h
      simp only [match_string, Prod.mk.injEq] at h
      exact hpat 1 _ adv_re_string h.1 h.2.2
    · rw [hK.2] at h
      simp only [match_whitespace, Prod.mk.injEq] at h
      exact hpat 0 _ adv_re_whitespace h.1 h.2.2
    · rw [hK.2] at h
      simp only [match_comment, Prod.mk.injEq] at h
      exact hpat 3 _ adv_re_comment h.1 h.2.2
    · rw [hK.2] at h
      simp only [Prod.mk.injEq] at h
      rcases hr with hr | hr <;> simp [hr] at h

/-- Witness of C1 on the four bytes `123,`: the result is `(complete, number, 3)`. -/
theorem attempt_match_success_length_witness :
    attempt_match [49, 50, 51, 44] = (match_result.complete, token_kind.number, 3)
      ∧ (1 ≤ 3 ∧ 3 ≤ [49, 50, 51, 44].length) :=
  ⟨by decide,
   attempt_match_success_length [49, 50, 51, 44] match_result.complete token_kind.number 3
    (by decide) (Or.inl rfl)⟩

/-- C2: on a byte range that starts with `[`, `]`, `{`, `}`, `:` or `,` the result is
`(complete, K, 1)` with the kind `K` of that byte, whatever follows (also nothing). -/
theorem attempt_match_punctuation (rest : List Nat) :
    attempt_match (91 :: rest) = (match_result.complete, token_kind.array_begin, 1)
    ∧ attempt_match (93 :: rest) = (match_result.complete, token_kind.array_end, 1)
    ∧ attempt_match (123 :: rest) = (match_result.complete, token_kind.object_begin, 1)
    ∧ attempt_match (125 :: rest) = (match_result.complete, token_kind.object_end, 1)
    ∧ attempt_match (58 :: rest)
        = (match_result.complete, token_kind.object_key_delimiter, 1)
    ∧ attempt_match (44 :: rest) = (match_result.complete, token_kind.separator, 1) := by
  simp [attempt_match]

/-- C3: on the empty byte range the result is `(incomplete_eof, unknown, 0)`. -/
theorem attempt_match_empty :
    attempt_match [] = (match_result.incomplete_eof, token_kind.unknown, 0) := rfl

/-- C4: a literal that is fully present is `complete` with its length, whatever follows:
`true` gives `(complete, boolean, 4)`, `false` gives `(complete, boolean, 5)`, `null` gives
`(complete, null, 4)`. -/
theorem attempt_match_literal_complete (rest : List Nat) :
    attempt_match ([116, 114, 117, 101] ++ rest)
        = (match_result.complete, token_kind.boolean, 4)
    ∧ attempt_match ([102, 97, 108, 115, 101] ++ rest)
        = (match_result.complete, token_kind.boolean, 5)
    ∧ attempt_match ([110, 117, 108, 108] ++ rest)
        = (match_result.complete, token_kind.null, 4) := by
  simp [attempt_match, match_true, match_false, match_null, match_literal,
    match_literal_loop, lit_true, lit_false, lit_null]

/-- C5: on a byte range that is a non-empty proper prefix of `true`, `false` or `null` the
result is `incomplete_eof` with the kind of that literal (and the length scanned, which is
the whole range). -/
theorem attempt_match_literal_prefix (s text : List Nat) (k : token_kind)
    (ht : (text = [116, 114, 117, 101] ∧ k = token_kind.boolean)
      ∨ (text = [102, 97, 108, 115, 101] ∧ k = token_kind.boolean)
      ∨ (text = [110, 117, 108, 108] ∧ k = token_kind.null))
    (hne : s ≠ []) (hpre : s <+: text) (hlt : s ≠ text) :
    attempt_match s = (match_result.incomplete_eof, k, s.length) := by
  obtain ⟨u, hu⟩ := hpre
  rcases ht with ⟨h1, h2⟩ | ⟨h1, h2⟩ | ⟨h1, h2⟩ <;> subst h1 <;> subst h2
  all_goals
    rcases s with _ | ⟨a, _ | ⟨b, _ | ⟨c, _ | ⟨d, _ | ⟨e, _ | ⟨f, s⟩⟩⟩⟩⟩⟩
    all_goals simp at hu hne hlt
    all_goals first
      | (obtain ⟨rfl, -⟩ := hu; decide)
      | (obtain ⟨rfl, rfl, -⟩ := hu; decide)
      | (obtain ⟨rfl, rfl, rfl, -⟩ := hu; decide)
      | (obtain ⟨rfl, rfl, rfl, rfl, -⟩ := hu; decide)
      | (exfalso; omega)

/-- Witness of C5 on the three bytes `tru`. -/
theorem attempt_match_literal_prefix_witness :
    attempt_match [116, 114, 117] = (match_result.incomplete_eof, token_kind.boolean, 3) :=
  attempt_match_literal_prefix [116, 114, 117] [116, 114, 117, 101] token_kind.boolean
    (Or.inl ⟨rfl, rfl⟩) (by decide) ⟨[101], rfl⟩ (by decide)

/-- C7: on a byte range whose first byte selects a pattern and on which `regex_search` finds
a match of length `L`, the length is at most the size of the range, the result is
`complete_eof` when `L` is the size of the range and `complete` when `L` is smaller; the kind
is the kind of the pattern and the returned length is `L`. -/
theorem attempt_match_pattern_result (c : Nat) (t : List Nat) (pattern : Matcher)
    (kind : token_kind) (p L : Nat)
    (hd : ((c = 45 ∨ isDigit c = true) ∧ pattern = re_number ∧ kind = token_kind.number)
      ∨ (c = 34 ∧ pattern = re_string ∧ kind = token_kind.string)
      ∨ (isSpace c = true ∧ pattern = re_whitespace ∧ kind = token_kind.whitespace)
      ∨ (c = 47 ∧ pattern = re_comment ∧ kind = token_kind.comment))
    (hm : regex_search (c :: t) pattern = some (p, L)) :
    L ≤ (c :: t).length
    ∧ (L = (c :: t).length →
        attempt_match (c :: t) = (match_result.complete_eof, kind, L))
    ∧ (L < (c :: t).length →
        attempt_match (c :: t) = (match_result.complete, kind, L)) := by
  have hmp := match_pattern_of_search (c :: t) pattern p L hm
  have hadv : Adv 1 pattern := by
    rcases hd with ⟨-, h, -⟩ | ⟨-, h, -⟩ | ⟨-, h, -⟩ | ⟨-, h, -⟩ <;> subst h
    · exact adv_re_number
    · exact adv_mono adv_re_string (by omega)
    · exact adv_re_whitespace
    · exact adv_mono adv_re_comment (by omega)
  have hL := (regex_search_bound hadv (c :: t) p L hm).2
  have hres : attempt_match (c :: t)
      = ((match_pattern (c :: t) pattern).1, kind, (match_pattern (c :: t) pattern).2) := by
    rcases hd with ⟨h1, h2, h3⟩ | ⟨h1, h2, h3⟩ | ⟨h1, h2, h3⟩ | ⟨h1, h2, h3⟩
      <;> subst h2 <;> subst h3
    · rw [attempt_match_number c t h1]; rfl
    · subst h1; rw [attempt_match_string]; rfl
    · rw [attempt_match_whitespace c t h1]; rfl
    · subst h1; rw [attempt_match_comment]; rfl
  rw [hres, hmp]
  refine ⟨hL, ?_, ?_⟩
  · intro h
    simp [h]
  · intro h
    rw [if_neg (by omega)]

/-- Witness of C7 on the four bytes `123,`: the number pattern matches three bytes, fewer
than the range holds, and the result is `complete`. -/
theorem attempt_match_pattern_result_witness :
    regex_search [49, 50, 51, 44] re_number = some (0, 3)
    ∧ attempt_match [49, 50, 51, 44] = (match_result.complete, token_kind.number, 3) :=
  ⟨by decide,
   (attempt_match_pattern_result 49 [50, 51, 44] re_number token_kind.number 0 3
      (Or.inl ⟨Or.inr (by decide), rfl, rfl⟩) (by decide)).2.2 (by decide)⟩

/-- C8: on a byte range that starts with a space, tab, LF or CR the kind is `whitespace`, the
length is the length of the maximal leading run of such bytes, the result is `complete_eof`
when the run is the whole range and `complete` otherwise (never `unmatched`), and the byte at
offset length, if there is one, is none of the four. -/
theorem attempt_match_whitespace_run (c : Nat) (t : List Nat) (hc : isSpace c = true) :
    attempt_match (c :: t) =
      (if ((c :: t).takeWhile isSpace).length = (c :: t).length
        then match_result.complete_eof else match_result.complete,
       token_kind.whitespace, ((c :: t).takeWhile isSpace).length)
    ∧ (attempt_match (c :: t)).1 ≠ match_result.unmatched
    ∧ ∀ b, (c :: t)[((c :: t).takeWhile isSpace).length]? = some b → isSpace b = false := by
  have hs : regex_search (c :: t) re_whitespace
      = some (0, ((c :: t).takeWhile isSpace).length) := by
    unfold re_whitespace
    rw [regex_search_bol, plus_cls_head]
    simp [hc]
  have hres : attempt_match (c :: t) =
      (if ((c :: t).takeWhile isSpace).length = (c :: t).length
        then match_result.complete_eof else match_result.complete,
       token_kind.whitespace, ((c :: t).takeWhile isSpace).length) := by
    rw [attempt_match_whitespace c t hc]
    unfold match_whitespace
    rw [match_pattern_of_search _ _ _ _ hs]
  refine ⟨hres, ?_, fun b hb => getElem?_length_takeWhile isSpace (c :: t) b hb⟩
  rw [hres]
  split <;> simp

/-- Witness of C8 on three spaces followed by `x`: the result is `(complete, whitespace, 3)`
and the byte at offset 3 is not a whitespace byte. -/
theorem attempt_match_whitespace_run_witness :
    attempt_match [32, 32, 32, 120] = (match_result.complete, token_kind.whitespace, 3)
    ∧ isSpace 120 = false :=
  ⟨(attempt_match_whitespace_run 32 [32, 32, 120] (by decide)).1.trans (by decide),
   (attempt_match_whitespace_run 32 [32, 32, 120] (by decide)).2.2 120 (by decide)⟩

/-- C6: on a byte range that starts with `-` or a digit, if some prefix of the range is a
word of the number grammar G, the kind is `number`, the result is `complete` or
`complete_eof` and the length is the length of the longest prefix in G; if no prefix is in
G, the result is `(unmatched, number, 1)`. -/
theorem attempt_match_number_longest (c : Nat) (t : List Nat)
    (hc : c = 45 ∨ isDigit c = true) :
    ((∃ w, w <+: c :: t ∧ InG w) →
      ∃ r L, attempt_match (c :: t) = (r, token_kind.number, L)
        ∧ (r = match_result.complete ∨ r = match_result.complete_eof)
        ∧ L ≤ (c :: t).length ∧ InG ((c :: t).take L)
        ∧ ∀ w, w <+: c :: t → InG w → w.length ≤ L)
    ∧ ((¬ ∃ w, w <+: c :: t ∧ InG w) →
      attempt_match (c :: t) = (match_result.unmatched, token_kind.number, 1)) := by
  rw [attempt_match_number c t hc, match_number_eq]
  constructor
  · rintro ⟨w, hp, hw⟩
    obtain ⟨L, hL, -⟩ := num_max (c :: t) w hp hw
    obtain ⟨w0, hp0, hl0, hw0⟩ := num_sound (c :: t) L hL
    have htake : (c :: t).take L = w0 := by
      rw [List.prefix_iff_eq_take.mp hp0, hl0]
    refine ⟨if L = (c :: t).length then match_result.complete_eof else match_result.complete,
      L, by simp only [hL], ?_, ?_, ?_, ?_⟩
    · split
      · exact Or.inr rfl
      · exact Or.inl rfl
    · rw [← hl0]
      exact hp0.length_le
    · rw [htake]
      exact hw0
    · intro w2 hp2 hw2
      obtain ⟨L2, hL2, hle⟩ := num_max (c :: t) w2 hp2 hw2
      rw [hL] at hL2
      simp only [Option.some.injEq] at hL2
      omega
  · intro hno
    cases hn : numLen (c :: t) with
    | none => rfl
    | some L =>
      obtain ⟨w0, hp0, -, hw0⟩ := num_sound (c :: t) L hn
      exact absurd ⟨w0, hp0, hw0⟩ hno

/-- Witness of C6 on the seven bytes `1.5e3.7`: the prefix `1` is a word of G, the result is
`(complete_eof, number, 7)`, and no prefix in G is longer than seven bytes. -/
theorem attempt_match_number_longest_witness :
    attempt_match [49, 46, 53, 101, 51, 46, 55]
        = (match_result.complete_eof, token_kind.number, 7)
    ∧ InG ([49, 46, 53, 101, 51, 46, 55].take 7)
    ∧ ∀ w, w <+: [49, 46, 53, 101, 51, 46, 55] → InG w → w.length ≤ 7 := by
  have hG : InG [49] :=
    ⟨[], [49], [], [], rfl, Or.inl rfl, ⟨by simp, by simp [isDigit]⟩, Or.inl rfl, Or.inl rfl⟩
  obtain ⟨r, L, h1, -, -, h4, h5⟩ :=
    (attempt_match_number_longest 49 [46, 53, 101, 51, 46, 55] (Or.inr (by decide))).1
      ⟨[49], ⟨[46, 53, 101, 51, 46, 55], rfl⟩, hG⟩
  have h0 : attempt_match [49, 46, 53, 101, 51, 46, 55]
      = (match_result.complete_eof, token_kind.number, 7) := by decide
  rw [h0] at h1
  simp only [Prod.mk.injEq] at h1
  obtain ⟨-, -, hL⟩ := h1
  subst hL
  exact ⟨h0, h4, h5⟩

/-- C9: the code at the five bytes `"ab"x`, a string token with the body `ab` followed by
`x`.  The bracket expression of `re_string` excludes the letter `b`, so the pattern does not
match and the result is `(unmatched, string, 1)`, not `(complete, string, 4)`; with the body
`ac` the result is `(complete, string, 4)`. -/
theorem attempt_match_string_ab :
    attempt_match [34, 97, 98, 34, 120] = (match_result.unmatched, token_kind.string, 1)
    ∧ isStringChar 98 = false
    ∧ attempt_match [34, 97, 99, 34, 120] = (match_result.complete, token_kind.string, 4) := by
  decide

/-- C10: the code at the five bytes `/***/`, a comment whose body is the single byte `*`.
The body does not contain `*/`, yet the pattern does not match and the result is
`(unmatched, comment, 1)`, not `(complete_eof, comment, 5)`; the eight bytes `/* c */x` of
the specification give `(complete, comment, 7)`. -/
theorem attempt_match_comment_star :
    attempt_match [47, 42, 42, 42, 47] = (match_result.unmatched, token_kind.comment, 1)
    ∧ attempt_match [47, 42, 32, 99, 32, 42, 47, 120]
        = (match_result.complete, token_kind.comment, 7) := by
  decide

/-! ## The switch and the literal loop, continued -/

theorem attempt_match_kind (c : Nat) (t : List Nat) :
    (attempt_match (c :: t)).2.1 = first_kind c := by
  rcases attempt_match_cons_cases c t with ⟨K, hc, hK⟩ | hK | hK | hK | hK | hK | hK | hK | hK
  · rcases hc with h | h | h | h | h | h <;> subst h <;> simp [attempt_match, first_kind]
  · obtain ⟨h, hK⟩ := hK
    subst h
    rw [hK]
    simp [match_true, first_kind]
  · obtain ⟨h, hK⟩ := hK
    subst h
    rw [hK]
    simp [match_false, first_kind]
  · obtain ⟨h, hK⟩ := hK
    subst h
    rw [hK]
    simp [match_null, first_kind]
  · obtain ⟨h, hK⟩ := hK
    rw [hK]
    have h2 : c ≠ 91 ∧ c ≠ 93 ∧ c ≠ 123 ∧ c ≠ 125 ∧ c ≠ 58 ∧ c ≠ 44 ∧ c ≠ 116 ∧ c ≠ 102
        ∧ c ≠ 110 := by
      simp only [isDigit, Bool.and_eq_true, decide_eq_true_eq] at h
      omega
    obtain ⟨a1, a2, a3, a4, a5, a6, a7, a8, a9⟩ := h2
    simp only [match_number, first_kind, a1, a2, a3, a4, a5, a6, a7, a8, a9, if_false, h,
      if_true]
  · obtain ⟨h, hK⟩ := hK
    subst h
    rw [hK]
    simp [match_string, first_kind, isDigit]
  · obtain ⟨h, hK⟩ := hK
    rw [hK]
    have h2 : c ≠ 91 ∧ c ≠ 93 ∧ c ≠ 123 ∧ c ≠ 125 ∧ c ≠ 58 ∧ c ≠ 44 ∧ c ≠ 116 ∧ c ≠ 102
        ∧ c ≠ 110 ∧ c ≠ 34 ∧ ¬ (c = 45 ∨ isDigit c = true) := by
      simp only [isSpace, Bool.or_eq_true, beq_iff_eq] at h
      simp only [isDigit, Bool.and_eq_true, decide_eq_true_eq]
      omega
    obtain ⟨a1, a2, a3, a4, a5, a6, a7, a8, a9, a10, a11⟩ := h2
    simp only [match_whitespace, first_kind, a1, a2, a3, a4, a5, a6, a7, a8, a9, a10, a11,
      if_false, h, if_true]
  · obtain ⟨h, hK⟩ := hK
    subst h
    rw [hK]
    simp [match_comment, first_kind, isDigit, isSpace]
  · obtain ⟨h, hK⟩ := hK
    rw [hK]
    obtain ⟨a1, a2, a3, a4, a5, a6, a7, a8, a9, a10, a11, a12, a13, a14⟩ := h
    simp only [first_kind, a1, a2, a3, a4, a5, a6, a7, a8, a9, a10, a11, a12, a13, a14,
      if_false, or_self, Bool.false_eq_true]

theorem first_kind_unknown_iff (c : Nat) :
    first_kind c = token_kind.unknown ↔
      (c ≠ 91 ∧ c ≠ 93 ∧ c ≠ 123 ∧ c ≠ 125 ∧ c ≠ 58 ∧ c ≠ 44 ∧ c ≠ 116 ∧ c ≠ 102
        ∧ c ≠ 110 ∧ c ≠ 45 ∧ ¬ (48 ≤ c ∧ c ≤ 57) ∧ c ≠ 34 ∧ c ≠ 32 ∧ c ≠ 9 ∧ c ≠ 10
        ∧ c ≠ 13 ∧ c ≠ 47) := by
  constructor
  · intro h
    by_contra hn
    have hcases : c = 91 ∨ c = 93 ∨ c = 123 ∨ c = 125 ∨ c = 58 ∨ c = 44 ∨ c = 116
        ∨ c = 102 ∨ c = 110 ∨ c = 45 ∨ (48 ≤ c ∧ c ≤ 57) ∨ c = 34 ∨ c = 32 ∨ c = 9
        ∨ c = 10 ∨ c = 13 ∨ c = 47 := by omega
    rcases hcases with h1 | h1 | h1 | h1 | h1 | h1 | h1 | h1 | h1 | h1 | h1 | h1 | h1 | h1
      | h1 | h1 | h1
    all_goals first
      | (subst h1; revert h; decide)
      | (obtain ⟨h2, h3⟩ := h1
         interval_cases c <;> revert h <;> decide)
  · rintro ⟨a1, a2, a3, a4, a5, a6, a7, a8, a9, a10, a11, a12, a13, a14, a15, a16, a17⟩
    have hd : isDigit c = false := by
      simp only [isDigit, Bool.and_eq_false_iff, decide_eq_false_iff_not]
      omega
    have hs : isSpace c = false := by
      simp only [isSpace, Bool.or_eq_false_iff, beq_eq_false_iff_ne]
      exact ⟨⟨⟨a13, a14⟩, a16⟩, a15⟩
    simp only [first_kind, a1, a2, a3, a4, a5, a6, a7, a8, a9, a10, a12, a17, hd, hs,
      if_false, or_self, Bool.false_eq_true]

/-- The loop of `match_literal` stops with `unmatched` at the first index, from `len` on, at
which the byte range differs from the literal. -/
theorem match_literal_loop_mismatch (s literal : List Nat) (k len i : Nat)
    (h1 : len ≤ i) (h2 : i < len + k) (hi : i < s.length)
    (hmis : s.getD i 0 ≠ literal.getD i 0)
    (heq : ∀ j, len ≤ j → j < i → s.getD j 0 = literal.getD j 0) :
    match_literal_loop s literal k len = (match_result.unmatched, i) := by
  induction k generalizing len with
  | zero => omega
  | succ k ih =>
    rw [match_literal_loop]
    rw [if_neg (by omega)]
    by_cases hl : len = i
    · subst hl
      rw [if_pos hmis]
    · have := heq len (Nat.le_refl _) (by omega)
      rw [if_neg (by simpa using this)]
      exact ih (len + 1) (by omega) (by omega) (fun j hj1 hj2 => heq j (by omega) hj2)

/-- When the loop of `match_literal` stops with `unmatched`, the length is an index inside
the byte range and inside the literal at which the two differ. -/
theorem match_literal_loop_unmatched (s literal : List Nat) (k len L : Nat)
    (hlen : len ≤ s.length)
    (h : match_literal_loop s literal k len = (match_result.unmatched, L)) :
    len ≤ L ∧ L < len + k ∧ L < s.length ∧ s.getD L 0 ≠ literal.getD L 0 := by
  induction k generalizing len with
  | zero => simp [match_literal_loop] at h
  | succ k ih =>
    rw [match_literal_loop] at h
    split at h
    · simp at h
    · rename_i hne
      split at h
      · rename_i hmis
        simp only [Prod.mk.injEq, true_and] at h
        subst h
        exact ⟨Nat.le_refl _, by omega, by omega, hmis⟩
      · have := ih (len + 1) (by omega) h
        omega

/-- The literal matchers never return `complete_eof`, and on `incomplete_eof` the length is
the size of the byte range. -/
theorem match_literal_loop_incomplete (s literal : List Nat) (k len L : Nat)
    (h : match_literal_loop s literal k len = (match_result.incomplete_eof, L)) :
    L = s.length := by
  induction k generalizing len with
  | zero => simp [match_literal_loop] at h
  | succ k ih =>
    rw [match_literal_loop] at h
    split at h
    · rename_i heq
      simp only [Prod.mk.injEq, true_and] at h
      omega
    · split at h
      · simp at h
      · exact ih (len + 1) h

/-- A mismatch of a literal matcher on a byte range that starts with the first byte of the
literal is found at an index from one on. -/
theorem match_literal_unmatched (s literal : List Nat) (L : Nat)
    (h0 : s.getD 0 0 = literal.getD 0 0)
    (h : match_literal s literal = (match_result.unmatched, L)) :
    1 ≤ L ∧ L < literal.length - 1 ∧ L < s.length := by
  unfold match_literal at h
  have := match_literal_loop_unmatched s literal _ 0 L (Nat.zero_le _) h
  have hL : L ≠ 0 := by
    intro hL
    rw [hL] at this
    exact this.2.2.2 h0
  omega

/-- The results `(unmatched, length)` of `match_pattern` have length one. -/
theorem match_pattern_unmatched (s : List Nat) (pattern : Matcher) (L : Nat)
    (h : match_pattern s pattern = (match_result.unmatched, L)) : L = 1 := by
  unfold match_pattern at h
  cases hs : regex_search s pattern with
  | none =>
    simp [hs] at h
    omega
  | some m =>
    simp only [hs, Prod.mk.injEq] at h
    split at h <;> simp at h

theorem match_pattern_ne_incomplete (s : List Nat) (pattern : Matcher) :
    (match_pattern s pattern).1 ≠ match_result.incomplete_eof := by
  unfold match_pattern
  cases regex_search s pattern with
  | none => simp
  | some m =>
    simp only
    split <;> simp

theorem match_literal_progress (s literal : List Nat) (r : match_result) (L : Nat)
    (hN : 2 ≤ literal.length) (h0 : s.getD 0 0 = literal.getD 0 0)
    (h : match_literal s literal = (r, L)) (hr : r ≠ match_result.incomplete_eof) :
    1 ≤ L ∧ L ≤ s.length := by
  cases r with
  | complete => exact match_literal_success s literal L _ hN h (Or.inl rfl)
  | complete_eof => exact match_literal_success s literal L _ hN h (Or.inr rfl)
  | incomplete_eof => exact absurd rfl hr
  | unmatched =>
    have := match_literal_unmatched s literal L h0 h
    omega

theorem match_pattern_progress {n : Nat} {pattern : Matcher} (hp : Adv (n + 1) pattern)
    (c : Nat) (t : List Nat) (r : match_result) (L : Nat)
    (h : match_pattern (c :: t) pattern = (r, L)) : 1 ≤ L ∧ L ≤ (c :: t).length := by
  cases r with
  | complete =>
    have := match_pattern_success hp (c :: t) L _ h (Or.inl rfl)
    omega
  | complete_eof =>
    have := match_pattern_success hp (c :: t) L _ h (Or.inr rfl)
    omega
  | incomplete_eof =>
    have := match_pattern_ne_incomplete (c :: t) pattern
    rw [h] at this
    exact absurd rfl this
  | unmatched =>
    have := match_pattern_unmatched (c :: t) pattern L h
    subst this
    simp

/-- On a non-empty byte range every result other than `incomplete_eof` has a length between
one and the size of the range. -/
theorem attempt_match_progress (c : Nat) (t : List Nat) (r : match_result) (k : token_kind)
    (L : Nat) (h : attempt_match (c :: t) = (r, k, L))
    (hr : r ≠ match_result.incomplete_eof) : 1 ≤ L ∧ L ≤ (c :: t).length := by
  rcases attempt_match_cons_cases c t with ⟨K, -, hK⟩ | hK | hK | hK | hK | hK | hK | hK | hK
  · rw [hK] at h
    simp only [Prod.mk.injEq] at h
    obtain ⟨-, -, h3⟩ := h
    subst h3
    simp
  · obtain ⟨hc, hK⟩ := hK
    subst hc
    rw [hK] at h
    simp only [match_true, Prod.mk.injEq] at h
    exact match_literal_progress _ lit_true r L (by simp [lit_true]) (by simp [lit_true])
      (Prod.ext h.1 h.2.2) hr
  · obtain ⟨hc, hK⟩ := hK
    subst hc
    rw [hK] at h
    simp only [match_false, Prod.mk.injEq] at h
    exact match_literal_progress _ lit_false r L (by simp [lit_false]) (by simp [lit_false])
      (Prod.ext h.1 h.2.2) hr
  · obtain ⟨hc, hK⟩ := hK
    subst hc
    rw [hK] at h
    simp only [match_null, Prod.mk.injEq] at h
    exact match_literal_progress _ lit_null r L (by simp [lit_null]) (by simp [lit_null])
      (Prod.ext h.1 h.2.2) hr
  · rw [hK.2] at h
    simp only [match_number, Prod.mk.injEq] at h
    exact match_pattern_progress (n := 0) adv_re_number c t r L (Prod.ext h.1 h.2.2)
  · rw [hK.2] at h
    simp only [match_string, Prod.mk.injEq] at h
    exact match_pattern_progress (n := 1) adv_re_string c t r L (Prod.ext h.1 h.2.2)
  · rw [hK.2] at h
    simp only [match_whitespace, Prod.mk.injEq] at h
    exact match_pattern_progress (n := 0) adv_re_whitespace c t r L (Prod.ext h.1 h.2.2)
  · rw [hK.2] at h
    simp only [match_comment, Prod.mk.injEq] at h
    exact match_pattern_progress (n := 3) adv_re_comment c t r L (Prod.ext h.1 h.2.2)
  · rw [hK.2] at h
    simp only [Prod.mk.injEq] at h
    obtain ⟨-, -, h3⟩ := h
    subst h3
    simp

/-- On a non-empty byte range the result `incomplete_eof` comes with the size of the range
as length. -/
theorem attempt_match_incomplete_length (c : Nat) (t : List Nat) (k : token_kind) (L : Nat)
    (h : attempt_match (c :: t) = (match_result.incomplete_eof, k, L)) :
    L = (c :: t).length := by
  have hlit : ∀ literal : List Nat,
      (match_literal (c :: t) literal).1 = match_result.incomplete_eof →
      (match_literal (c :: t) literal).2 = L → L = (c :: t).length := by
    intro literal h1 h2
    exact match_literal_loop_incomplete (c :: t) literal _ 0 L (Prod.ext h1 h2)
  have hpat : ∀ pattern : Matcher,
      (match_pattern (c :: t) pattern).1 = match_result.incomplete_eof →
      L = (c :: t).length := by
    intro pattern h1
    exact absurd h1 (match_pattern_ne_incomplete (c :: t) pattern)
  rcases attempt_match_cons_cases c t with ⟨K, -, hK⟩ | hK | hK | hK | hK | hK | hK | hK | hK
  · rw [hK] at h
    simp at h
  · rw [hK.2] at h
    simp only [match_true, Prod.mk.injEq] at h
    exact hlit _ h.1 h.2.2
  · rw [hK.2] at h
    simp only [match_false, Prod.mk.injEq] at h
    exact hlit _ h.1 h.2.2
  · rw [hK.2] at h
    simp only [match_null, Prod.mk.injEq] at h
    exact hlit _ h.1 h.2.2
  · rw [hK.2] at h
    simp only [match_number, Prod.mk.injEq] at h
    exact hpat _ h.1
  · rw [hK.2] at h
    simp only [match_string, Prod.mk.injEq] at h
    exact hpat _ h.1
  · rw [hK.2] at h
    simp only [match_whitespace, Prod.mk.injEq] at h
    exact hpat _ h.1
  · rw [hK.2] at h
    simp only [match_comment, Prod.mk.injEq] at h
    exact hpat _ h.1
  · rw [hK.2] at h
    simp at h

/-- The results `unmatched` of `attempt_match`: length one for the pattern kinds and for
`unknown`, and for the literal kinds an index from one on, below the length of the literal
and inside the byte range. -/
theorem attempt_match_unmatched_cases (s : List Nat) (k : token_kind) (L : Nat)
    (h : attempt_match s = (match_result.unmatched, k, L)) :
    (k ≠ token_kind.boolean ∧ k ≠ token_kind.null ∧ L = 1)
    ∨ ((k = token_kind.boolean ∨ k = token_kind.null) ∧ 1 ≤ L ∧ L ≤ 4 ∧ L < s.length) := by
  cases s with
  | nil => simp [attempt_match] at h
  | cons c t =>
    have hlit : ∀ literal : List Nat, literal.length ≤ 6 →
        (c :: t).getD 0 0 = literal.getD 0 0 →
        (match_literal (c :: t) literal).1 = match_result.unmatched →
        (match_literal (c :: t) literal).2 = L →
        1 ≤ L ∧ L ≤ 4 ∧ L < (c :: t).length := by
      intro literal hN h0 h1 h2
      have := match_literal_unmatched (c :: t) literal L h0 (Prod.ext h1 h2)
      omega
    have hpat : ∀ pattern : Matcher,
        (match_pattern (c :: t) pattern).1 = match_result.unmatched →
        (match_pattern (c :: t) pattern).2 = L → L = 1 := by
      intro pattern h1 h2
      exact match_pattern_unmatched (c :: t) pattern L (Prod.ext h1 h2)
    rcases attempt_match_cons_cases c t with
      ⟨K, -, hK⟩ | hK | hK | hK | hK | hK | hK | hK | hK
    · rw [hK] at h
      simp at h
    · obtain ⟨hc, hK⟩ := hK
      subst hc
      rw [hK] at h
      simp only [match_true, Prod.mk.injEq] at h
      exact Or.inr ⟨Or.inl h.2.1.symm,
        hlit lit_true (by simp [lit_true]) (by simp [lit_true]) h.1 h.2.2⟩
    · obtain ⟨hc, hK⟩ := hK
      subst hc
      rw [hK] at h
      simp only [match_false, Prod.mk.injEq] at h
      exact Or.inr ⟨Or.inl h.2.1.symm,
        hlit lit_false (by simp [lit_false]) (by simp [lit_false]) h.1 h.2.2⟩
    · obtain ⟨hc, hK⟩ := hK
      subst hc
      rw [hK] at h
      simp only [match_null, Prod.mk.injEq] at h
      exact Or.inr ⟨Or.inr h.2.1.symm,
        hlit lit_null (by simp [lit_null]) (by simp [lit_null]) h.1 h.2.2⟩
    · rw [hK.2] at h
      simp only [match_number, Prod.mk.injEq] at h
      rw [← h.2.1]
      exact Or.inl ⟨by simp, by simp, hpat _ h.1 h.2.2⟩
    · rw [hK.2] at h
      simp only [match_string, Prod.mk.injEq] at h
      rw [← h.2.1]
      exact Or.inl ⟨by simp, by simp, hpat _ h.1 h.2.2⟩
    · rw [hK.2] at h
      simp only [match_whitespace, Prod.mk.injEq] at h
      rw [← h.2.1]
      exact Or.inl ⟨by simp, by simp, hpat _ h.1 h.2.2⟩
    · rw [hK.2] at h
      simp only [match_comment, Prod.mk.injEq] at h
      rw [← h.2.1]
      exact Or.inl ⟨by simp, by simp, hpat _ h.1 h.2.2⟩
    · rw [hK.2] at h
      simp only [Prod.mk.injEq, true_and] at h
      rw [← h.1, ← h.2]
      exact Or.inl ⟨by simp, by simp, rfl⟩

/-! ## The drive loop -/

theorem drive_fuel (f1 f2 : Nat) (s : List Nat) (h1 : s.length ≤ f1) (h2 : s.length ≤ f2) :
    drive f1 s = drive f2 s := by
  induction f1 generalizing f2 s with
  | zero =>
    cases s with
    | nil => cases f2 <;> rfl
    | cons c t => simp at h1
  | succ f ih =>
    cases s with
    | nil => cases f2 <;> rfl
    | cons c t =>
      cases f2 with
      | zero => simp at h2
      | succ g =>
        simp only [drive]
        split
        · rfl
        · rename_i hr
          have hp := attempt_match_progress c t (attempt_match (c :: t)).1
            (attempt_match (c :: t)).2.1 (attempt_match (c :: t)).2.2 rfl hr
          simp only [List.length_cons] at h1 h2 hp
          generalize (attempt_match (c :: t)).2.2 = L at hp ⊢
          have hl : ((c :: t).drop L).length ≤ t.length := by
            rw [List.length_drop, List.length_cons]
            omega
          rw [ih g _ (by omega) (by omega)]

theorem drive_total (fuel : Nat) (s : List Nat) (h : s.length ≤ fuel) :
    ∃ toks, drive fuel s = some toks ∧ (toks.map (fun r => r.2.2)).sum ≤ s.length := by
  induction fuel generalizing s with
  | zero =>
    cases s with
    | nil => exact ⟨[], rfl, by simp⟩
    | cons c t => simp at h
  | succ f ih =>
    cases s with
    | nil => exact ⟨[], rfl, by simp⟩
    | cons c t =>
      simp only [drive]
      split
      · rename_i hr
        refine ⟨_, rfl, ?_⟩
        have := attempt_match_incomplete_length c t (attempt_match (c :: t)).2.1
          (attempt_match (c :: t)).2.2 (by rw [← hr])
        simp only [List.map_cons, List.map_nil, List.sum_cons, List.sum_nil]
        generalize (attempt_match (c :: t)).2.2 = L at this ⊢
        omega
      · rename_i hr
        have hp := attempt_match_progress c t (attempt_match (c :: t)).1
          (attempt_match (c :: t)).2.1 (attempt_match (c :: t)).2.2 rfl hr
        generalize attempt_match (c :: t) = r at hp ⊢
        have hl : ((c :: t).drop r.2.2).length = (c :: t).length - r.2.2 :=
          List.length_drop _ _
        simp only [List.length_cons] at h hp hl
        obtain ⟨toks, h1, h2⟩ := ih ((c :: t).drop r.2.2) (by omega)
        refine ⟨r :: toks, by rw [h1]; rfl, ?_⟩
        simp only [List.map_cons, List.sum_cons, List.length_cons]
        omega

/-! ## Claims, continued -/

/-- C11: on a non-empty byte range whose first byte has no case label in the switch (none of
`[`, `]`, `{`, `}`, `:`, `,`, `t`, `f`, `n`, `-`, a digit, `"`, space, tab, LF, CR, `/`) the
result is `(unmatched, unknown, 1)`, whatever follows. -/
theorem attempt_match_default (c : Nat) (t : List Nat)
    (hc : c ≠ 91 ∧ c ≠ 93 ∧ c ≠ 123 ∧ c ≠ 125 ∧ c ≠ 58 ∧ c ≠ 44 ∧ c ≠ 116 ∧ c ≠ 102
      ∧ c ≠ 110 ∧ c ≠ 45 ∧ ¬ (48 ≤ c ∧ c ≤ 57) ∧ c ≠ 34 ∧ c ≠ 32 ∧ c ≠ 9 ∧ c ≠ 10
      ∧ c ≠ 13 ∧ c ≠ 47) :
    attempt_match (c :: t) = (match_result.unmatched, token_kind.unknown, 1) := by
  obtain ⟨a1, a2, a3, a4, a5, a6, a7, a8, a9, a10, a11, a12, a13, a14, a15, a16, a17⟩ := hc
  have h5 : ¬ (c = 45 ∨ c = 48 ∨ c = 49 ∨ c = 50 ∨ c = 51 ∨ c = 52 ∨ c = 53 ∨ c = 54
      ∨ c = 55 ∨ c = 56 ∨ c = 57) := by omega
  have h7 : ¬ (c = 32 ∨ c = 9 ∨ c = 10 ∨ c = 13) := by omega
  simp only [attempt_match, a1, a2, a3, a4, a5, a6, a7, a8, a9, h5, a12, h7, a17, if_false]

/-- Witness of C11 on the byte `@` followed by `true`. -/
theorem attempt_match_default_witness :
    attempt_match [64, 116, 114, 117, 101]
      = (match_result.unmatched, token_kind.unknown, 1) :=
  attempt_match_default 64 [116, 114, 117, 101] (by decide)

/-- C12, counterexample: on the four bytes `trux` the result is `unmatched` with length 3,
not 1. -/
theorem attempt_match_unmatched_length_counterexample :
    attempt_match [116, 114, 117, 120] = (match_result.unmatched, token_kind.boolean, 3)
    ∧ ¬ (∀ (s : List Nat) (k : token_kind) (L : Nat),
        attempt_match s = (match_result.unmatched, k, L) → L = 1) := by
  refine ⟨by decide, fun h => ?_⟩
  have := h [116, 114, 117, 120] token_kind.boolean 3 (by decide)
  omega

/-- C12, amended: when `attempt_match` returns `unmatched` with a kind other than `boolean`
and `null`, the length is exactly one; with the kind `boolean` or `null` (a literal that
differs from the bytes) the length is at least one, at most four and less than the size of
the byte range. -/
theorem attempt_match_unmatched_length (s : List Nat) (k : token_kind) (L : Nat)
    (h : attempt_match s = (match_result.unmatched, k, L)) :
    (k ≠ token_kind.boolean → k ≠ token_kind.null → L = 1)
    ∧ (k = token_kind.boolean ∨ k = token_kind.null → 1 ≤ L ∧ L ≤ 4 ∧ L < s.length) := by
  rcases attempt_match_unmatched_cases s k L h with ⟨h1, h2, h3⟩ | ⟨h1, h2⟩
  · refine ⟨fun _ _ => h3, fun hk => ?_⟩
    rcases hk with hk | hk
    · exact absurd hk h1
    · exact absurd hk h2
  · refine ⟨fun hb hn => ?_, fun _ => h2⟩
    rcases h1 with hk | hk
    · exact absurd hk hb
    · exact absurd hk hn

/-- Witness of C12, amended, on the two bytes `"a`: an unterminated string is `unmatched`
with the kind `string` and length one. -/
theorem attempt_match_unmatched_length_witness :
    attempt_match [34, 97] = (match_result.unmatched, token_kind.string, 1) ∧ (1 : Nat) = 1 :=
  ⟨by decide,
   (attempt_match_unmatched_length [34, 97] token_kind.string 1 (by decide)).1
    (by decide) (by decide)⟩

/-- C16: the code at the three bytes quote, backslash, quote.  The bracket expression of
`re_string` accepts the backslash as an ordinary byte, so the three bytes are a string token:
the result is `(complete_eof, string, 3)` although the backslash is not followed by `u` and
four hex digits. -/
theorem attempt_match_string_backslash :
    attempt_match [34, 92, 34] = (match_result.complete_eof, token_kind.string, 3)
    ∧ isStringChar 92 = true := by
  decide

/-- C17: on a byte range that starts with the first byte of `true`, `false` or `null` and
that differs from the literal at an index `i` inside the range and inside the literal, all
earlier bytes being those of the literal, the result is `unmatched` with the kind of the
literal and the length `i`. -/
theorem attempt_match_literal_mismatch (s literal : List Nat) (kind : token_kind) (i : Nat)
    (hl : (literal = lit_true ∧ kind = token_kind.boolean)
      ∨ (literal = lit_false ∧ kind = token_kind.boolean)
      ∨ (literal = lit_null ∧ kind = token_kind.null))
    (h0 : s.head? = literal.head?) (hi : i < s.length) (hiN : i < literal.length - 1)
    (hmis : s.getD i 0 ≠ literal.getD i 0)
    (heq : ∀ j, j < i → s.getD j 0 = literal.getD j 0) :
    attempt_match s = (match_result.unmatched, kind, i) := by
  have hloop : match_literal s literal = (match_result.unmatched, i) :=
    match_literal_loop_mismatch s literal _ 0 i (Nat.zero_le _) (by omega) hi hmis
      (fun j _ hj => heq j hj)
  cases s with
  | nil => simp at hi
  | cons c t =>
    rcases hl with ⟨h1, h2⟩ | ⟨h1, h2⟩ | ⟨h1, h2⟩ <;> subst h1 <;> subst h2
    · have hc : c = 116 := by simpa [lit_true] using h0
      subst hc
      simp [attempt_match, match_true, hloop]
    · have hc : c = 102 := by simpa [lit_false] using h0
      subst hc
      simp [attempt_match, match_false, hloop]
    · have hc : c = 110 := by simpa [lit_null] using h0
      subst hc
      simp [attempt_match, match_null, hloop]

/-- Witness of C17 on the four bytes `trux`: the first mismatch is at index 3. -/
theorem attempt_match_literal_mismatch_witness :
    attempt_match [116, 114, 117, 120] = (match_result.unmatched, token_kind.boolean, 3) :=
  attempt_match_literal_mismatch [116, 114, 117, 120] lit_true token_kind.boolean 3
    (Or.inl ⟨rfl, rfl⟩) (by decide) (by decide) (by decide) (by decide)
    (by
      intro j hj
      have : j = 0 ∨ j = 1 ∨ j = 2 := by omega
      rcases this with h | h | h <;> subst h <;> decide)

/-- C18: the code at the seven bytes `/***/*/`.  The bytes hold `*/` at offset 3, yet the
pattern runs past it: the result is `(complete_eof, comment, 7)`, a token that ends at the
second `*/`. -/
theorem attempt_match_comment_runs_past :
    attempt_match [47, 42, 42, 42, 47, 42, 47]
      = (match_result.complete_eof, token_kind.comment, 7)
    ∧ [47, 42, 42, 42, 47, 42, 47].drop 3 = [42, 47] ++ [42, 47] := by
  decide

/-- C19: the kind is a function of the first byte: two non-empty byte ranges with the same
first byte get the same kind, and the kind is `unknown` exactly when the range is empty or
its first byte has no case label in the switch. -/
theorem attempt_match_kind_of_first_byte :
    (∀ (c : Nat) (t1 t2 : List Nat),
      (attempt_match (c :: t1)).2.1 = (attempt_match (c :: t2)).2.1)
    ∧ (∀ s : List Nat, (attempt_match s).2.1 = token_kind.unknown ↔
        (s = [] ∨ ∃ c t, s = c :: t ∧ c ≠ 91 ∧ c ≠ 93 ∧ c ≠ 123 ∧ c ≠ 125 ∧ c ≠ 58
          ∧ c ≠ 44 ∧ c ≠ 116 ∧ c ≠ 102 ∧ c ≠ 110 ∧ c ≠ 45 ∧ ¬ (48 ≤ c ∧ c ≤ 57)
          ∧ c ≠ 34 ∧ c ≠ 32 ∧ c ≠ 9 ∧ c ≠ 10 ∧ c ≠ 13 ∧ c ≠ 47)) := by
  constructor
  · intro c t1 t2
    rw [attempt_match_kind, attempt_match_kind]
  · intro s
    cases s with
    | nil => simp [attempt_match]
    | cons c t =>
      rw [attempt_match_kind, first_kind_unknown_iff]
      constructor
      · intro h
        exact Or.inr ⟨c, t, rfl, h⟩
      · rintro (h | ⟨c2, t2, h, h2⟩)
        · exact absurd h (List.cons_ne_nil c t)
        · simp only [List.cons.injEq] at h
          rw [h.1]
          exact h2

/-- C20: on a non-empty byte range every result other than `incomplete_eof` has a length
between one and the size of the range; hence the drive loop, which advances by the returned
length and stops at `incomplete_eof` or when no bytes remain, returns a result for every byte
range within as many iterations as the range has bytes (the result does not depend on a
larger bound), and the lengths it has advanced by add up to at most the size of the range. -/
theorem drive_progress :
    (∀ (s : List Nat) (r : match_result) (k : token_kind) (L : Nat),
      s ≠ [] → attempt_match s = (r, k, L) → r ≠ match_result.incomplete_eof →
      1 ≤ L ∧ L ≤ s.length)
    ∧ (∀ (s : List Nat) (fuel : Nat), s.length ≤ fuel →
      drive fuel s = drive s.length s
      ∧ ∃ toks, drive fuel s = some toks
          ∧ (toks.map (fun r => r.2.2)).sum ≤ s.length) := by
  constructor
  · intro s r k L hs h hr
    cases s with
    | nil => exact absurd rfl hs
    | cons c t => exact attempt_match_progress c t r k L h hr
  · intro s fuel h
    exact ⟨drive_fuel fuel s.length s h (Nat.le_refl _), drive_total fuel s h⟩

/-- Witness of C20 on the seven bytes `[1, tru`: the loop returns five results and stops at
the `incomplete_eof` of the truncated literal. -/
theorem drive_progress_witness :
    drive 7 [91, 49, 44, 32, 116, 114, 117]
      = some [(match_result.complete, token_kind.array_begin, 1),
          (match_result.complete, token_kind.number, 1),
          (match_result.complete, token_kind.separator, 1),
          (match_result.complete, token_kind.whitespace, 1),
          (match_result.incomplete_eof, token_kind.boolean, 3)]
    ∧ ∃ toks, drive 9 [91, 49, 44, 32, 116, 114, 117] = some toks
        ∧ (toks.map (fun r => r.2.2)).sum ≤ [91, 49, 44, 32, 116, 114, 117].length :=
  ⟨by decide, (drive_progress.2 [91, 49, 44, 32, 116, 114, 117] 9 (by decide)).2⟩

/-! ## The string pattern -/

theorem mem_times_cls (p : Nat → Bool) (n i : Nat) (s : List Nat) (z : State) :
    z ∈ times n (cls p) (i, s) ↔
      ∃ w, w.length = n ∧ (∀ c ∈ w, p c = true) ∧ s = w ++ z.2 ∧ z.1 = i + n := by
  induction n generalizing i s with
  | zero =>
    rw [times_zero]
    simp only [List.mem_singleton, List.length_eq_zero, Nat.add_zero]
    constructor
    · intro h
      subst h
      exact ⟨[], rfl, by simp, rfl, rfl⟩
    · rintro ⟨w, hw, -, hs, hi⟩
      subst hw
      exact Prod.ext hi (by simpa using hs.symm)
  | succ n ih =>
    rw [times_succ (adv_mono (adv_cls p) (Nat.zero_le 1))]
    cases s with
    | nil =>
      simp only [cls_nil, List.flatMap_nil, List.not_mem_nil, false_iff]
      rintro ⟨w, hw, -, hs, -⟩
      cases w with
      | nil => simp at hw
      | cons c w => simp at hs
    | cons c t =>
      rw [cls_cons]
      by_cases hp : p c = true
      · simp only [hp, if_true, List.flatMap_cons, List.flatMap_nil, List.append_nil, ih]
        constructor
        · rintro ⟨w, hw, hall, hs, hi⟩
          refine ⟨c :: w, by simp [hw], ?_, by simp [hs], by omega⟩
          intro d hd
          rcases List.mem_cons.mp hd with h | h
          · rw [h]; exact hp
          · exact hall d h
        · rintro ⟨w, hw, hall, hs, hi⟩
          cases w with
          | nil => simp at hw
          | cons d w =>
            simp only [List.cons_append, List.cons.injEq] at hs
            refine ⟨w, by simpa using hw, fun e he => hall e (List.mem_cons_of_mem _ he),
              hs.2, by omega⟩
      · simp only [hp, Bool.false_eq_true, if_false, List.flatMap_nil, List.not_mem_nil,
          false_iff]
        rintro ⟨w, hw, hall, hs, -⟩
        cases w with
        | nil => simp at hw
        | cons d w =>
          simp only [List.cons_append, List.cons.injEq] at hs
          exact hp (hs.1 ▸ hall d (List.mem_cons_self _ _))

/-- The matches of one string unit: the consumed bytes are a unit in the sense of
`IsStringUnit`. -/
theorem mem_re_string_unit (i : Nat) (s : List Nat) (z : State) :
    z ∈ re_string_unit (i, s) ↔
      ∃ u, IsStringUnit u ∧ s = u ++ z.2 ∧ z.1 = i + u.length := by
  unfold re_string_unit
  simp only [alt, List.mem_append]
  constructor
  · rintro (h | h)
    · cases s with
      | nil => simp [cls_nil] at h
      | cons c t =>
        rw [cls_cons] at h
        by_cases hc : isStringChar c = true
        · simp only [hc, if_true, List.mem_singleton] at h
          subst h
          exact ⟨[c], Or.inl ⟨c, rfl, hc⟩, rfl, rfl⟩
        · simp [hc] at h
    · simp only [seq, List.mem_flatMap] at h
      obtain ⟨y1, h1, y2, h2, h3⟩ := h
      rw [mem_times_cls] at h3
      obtain ⟨w, hw, hall, hs, hi⟩ := h3
      cases s with
      | nil => simp [lit, cls_nil] at h1
      | cons c t =>
        simp only [lit, cls_cons] at h1
        by_cases hc : c = 92
        · subst hc
          simp only [beq_self_eq_true, if_true, List.mem_singleton] at h1
          subst h1
          cases t with
          | nil => simp [lit, cls_nil] at h2
          | cons d t2 =>
            simp only [lit, cls_cons] at h2
            by_cases hd : d = 117
            · subst hd
              simp only [beq_self_eq_true, if_true, List.mem_singleton] at h2
              subst h2
              simp only at hs hi
              match w, hw, hall with
              | [h1, h2, h3, h4], _, hall =>
                refine ⟨[92, 117, h1, h2, h3, h4],
                  Or.inr ⟨h1, h2, h3, h4, rfl, hall h1 (by simp), hall h2 (by simp),
                    hall h3 (by simp), hall h4 (by simp)⟩, by simp [hs], ?_⟩
                simp only [List.length_cons, List.length_nil]
                omega
            · simp [hd] at h2
        · simp [hc] at h1
  · rintro ⟨u, hu, hs, hi⟩
    rcases hu with ⟨c, hu, hc⟩ | ⟨h1, h2, h3, h4, hu, hh1, hh2, hh3, hh4⟩
    · left
      subst hu
      subst hs
      simp only [List.singleton_append, cls_cons, hc, if_true, List.mem_singleton]
      exact Prod.ext hi rfl
    · right
      subst hu
      subst hs
      simp only [seq, lit, List.cons_append, cls_cons, beq_self_eq_true, if_true,
        List.flatMap_cons, List.flatMap_nil, List.append_nil]
      rw [mem_times_cls]
      refine ⟨[h1, h2, h3, h4], rfl, ?_, by simp, ?_⟩
      · intro c hc
        simp only [List.mem_cons, List.mem_singleton, List.not_mem_nil, or_false] at hc
        rcases hc with h | h | h | h <;> subst h <;> assumption
      · simp only [List.length_cons, List.length_nil] at hi
        omega

theorem adv_re_string_unit : Adv 1 re_string_unit := adv_string_unit

theorem isStringBody_nil : IsStringBody [] := ⟨[], rfl, by simp⟩

theorem isStringBody_append_unit (u b : List Nat) (hu : IsStringUnit u) (hb : IsStringBody b) :
    IsStringBody (u ++ b) := by
  obtain ⟨us, hb, hall⟩ := hb
  refine ⟨u :: us, by simp [hb], ?_⟩
  intro v hv
  rcases List.mem_cons.mp hv with h | h
  · rw [h]; exact hu
  · exact hall v h

theorem isStringUnit_pos (u : List Nat) (hu : IsStringUnit u) : 1 ≤ u.length := by
  rcases hu with ⟨c, hu, -⟩ | ⟨h1, h2, h3, h4, hu, -⟩ <;> subst hu <;> simp

theorem isStringUnit_no_quote (u : List Nat) (hu : IsStringUnit u) : 34 ∉ u := by
  rcases hu with ⟨c, hu, hc⟩ | ⟨h1, h2, h3, h4, hu, hh1, hh2, hh3, hh4⟩
  · subst hu
    intro h
    simp only [List.mem_singleton] at h
    subst h
    exact absurd hc (by decide)
  · subst hu
    intro h
    simp only [List.mem_cons, List.mem_singleton, List.not_mem_nil, or_false] at h
    rcases h with h | h | h | h | h | h
    · omega
    · omega
    · subst h; exact absurd hh1 (by decide)
    · subst h; exact absurd hh2 (by decide)
    · subst h; exact absurd hh3 (by decide)
    · subst h; exact absurd hh4 (by decide)

theorem isStringBody_no_quote (b : List Nat) (hb : IsStringBody b) : 34 ∉ b := by
  obtain ⟨us, hb, hall⟩ := hb
  subst hb
  intro h
  obtain ⟨u, hu, h34⟩ := List.mem_flatten.mp h
  exact isStringUnit_no_quote u (hall u hu) h34

/-- Every match of the starred unit group consumes a string body. -/
theorem star_unit_sound (n : Nat) (x y : State) (hn : x.2.length ≤ n)
    (hy : y ∈ star re_string_unit x) :
    ∃ pre, x.2 = pre ++ y.2 ∧ y.1 = x.1 + pre.length ∧ IsStringBody pre := by
  induction n generalizing x with
  | zero =>
    rw [star_unfold (adv_mono adv_re_string_unit (Nat.zero_le 1))] at hy
    simp only [List.mem_append, List.mem_flatMap, List.mem_singleton] at hy
    rcases hy with ⟨z, hz, -⟩ | hy
    · have := adv_re_string_unit x z hz
      omega
    · subst hy
      exact ⟨[], rfl, rfl, isStringBody_nil⟩
  | succ n ih =>
    rw [star_unfold (adv_mono adv_re_string_unit (Nat.zero_le 1))] at hy
    simp only [List.mem_append, List.mem_flatMap, List.mem_singleton] at hy
    rcases hy with ⟨z, hz, hy⟩ | hy
    · have hadv := adv_re_string_unit x z hz
      rw [if_neg (by omega)] at hy
      obtain ⟨u, hu, hs, hi⟩ := (mem_re_string_unit x.1 x.2 z).mp hz
      obtain ⟨pre, h1, h2, h3⟩ := ih z (by omega) hy
      refine ⟨u ++ pre, ?_, ?_, isStringBody_append_unit u pre hu h3⟩
      · rw [hs, h1, List.append_assoc]
      · rw [h2, hi, List.length_append]
        omega
    · subst hy
      exact ⟨[], rfl, rfl, isStringBody_nil⟩

/-- Every string body is consumed by some match of the starred unit group. -/
theorem star_unit_complete (pre : List Nat) (hb : IsStringBody pre) (i : Nat) (r : List Nat) :
    (i + pre.length, r) ∈ star re_string_unit (i, pre ++ r) := by
  obtain ⟨us, hb, hall⟩ := hb
  subst hb
  induction us generalizing i with
  | nil =>
    rw [star_unfold (adv_mono adv_re_string_unit (Nat.zero_le 1))]
    simp
  | cons u us ih =>
    rw [star_unfold (adv_mono adv_re_string_unit (Nat.zero_le 1))]
    simp only [List.mem_append, List.mem_flatMap, List.mem_singleton]
    left
    have hu := hall u (List.mem_cons_self _ _)
    have hpos := isStringUnit_pos u hu
    refine ⟨(i + u.length, us.flatten ++ r), ?_, ?_⟩
    · rw [mem_re_string_unit]
      exact ⟨u, hu, by simp, rfl⟩
    · rw [if_neg (by simp only; omega)]
      have := ih (i + u.length) (fun v hv => hall v (List.mem_cons_of_mem _ hv))
      simp only [List.flatten_cons, List.length_append] at this ⊢
      rw [← Nat.add_assoc]
      exact this

theorem seq_lit_cons (c i : Nat) (t : List Nat) (m : Matcher) :
    seq (lit c) m (i, c :: t) = m (i + 1, t) := by
  simp [seq, lit, cls_cons]

theorem seq_lit_cons_ne (c d i : Nat) (t : List Nat) (m : Matcher) (h : d ≠ c) :
    seq (lit c) m (i, d :: t) = [] := by
  simp [seq, lit, cls_cons, h]

theorem seq_lit_nil (c i : Nat) (m : Matcher) : seq (lit c) m (i, []) = [] := by
  simp [seq, lit, cls_nil]

theorem mem_lit (c : Nat) (z y : State) :
    y ∈ lit c z ↔ z.2 = c :: y.2 ∧ y.1 = z.1 + 1 := by
  obtain ⟨i, s⟩ := z
  cases s with
  | nil => simp [lit, cls_nil]
  | cons d t =>
    simp only [lit, cls_cons]
    by_cases hd : d = c
    · subst hd
      simp only [beq_self_eq_true, if_true, List.mem_singleton, List.cons.injEq, true_and]
      constructor
      · intro h
        subst h
        exact ⟨rfl, rfl⟩
      · rintro ⟨h1, h2⟩
        exact Prod.ext h2 h1.symm
    · simp [hd]

/-- The matches of the part of `re_string` after the opening quote: a string body followed
by a quote. -/
theorem mem_string_tail (i : Nat) (t : List Nat) (y : State) :
    y ∈ seq (star re_string_unit) (lit 34) (i, t) ↔
      ∃ pre, IsStringBody pre ∧ t = pre ++ 34 :: y.2 ∧ y.1 = i + pre.length + 1 := by
  simp only [seq, List.mem_flatMap]
  constructor
  · rintro ⟨z, hz, hy⟩
    obtain ⟨pre, h1, h2, h3⟩ := star_unit_sound _ (i, t) z (Nat.le_refl _) hz
    rw [mem_lit] at hy
    refine ⟨pre, h3, ?_, ?_⟩
    · rw [← hy.1]
      exact h1
    · rw [hy.2, h2]
  · rintro ⟨pre, hb, ht, hi⟩
    refine ⟨(i + pre.length, 34 :: y.2), ?_, ?_⟩
    · rw [ht]
      exact star_unit_complete pre hb i _
    · rw [mem_lit]
      exact ⟨rfl, hi⟩

theorem first_quote_unique (pre body a b : List Nat) (h : pre ++ 34 :: a = body ++ 34 :: b)
    (h1 : 34 ∉ pre) (h2 : 34 ∉ body) : pre = body ∧ a = b := by
  induction pre generalizing body with
  | nil =>
    cases body with
    | nil => simpa using h
    | cons c body =>
      simp only [List.nil_append, List.cons_append, List.cons.injEq] at h
      exact absurd (h.1 ▸ List.mem_cons_self _ _) h2
  | cons c pre ih =>
    cases body with
    | nil =>
      simp only [List.nil_append, List.cons_append, List.cons.injEq] at h
      exact absurd (h.1 ▸ List.mem_cons_self _ _) h1
    | cons d body =>
      simp only [List.cons_append, List.cons.injEq] at h
      have := ih body h.2 (fun hm => h1 (List.mem_cons_of_mem _ hm))
        (fun hm => h2 (List.mem_cons_of_mem _ hm))
      exact ⟨by rw [h.1, this.1], this.2⟩

theorem exists_first_quote (t : List Nat) (h : 34 ∈ t) :
    ∃ body rest, t = body ++ 34 :: rest ∧ 34 ∉ body := by
  induction t with
  | nil => simp at h
  | cons c t ih =>
    by_cases hc : c = 34
    · subst hc
      exact ⟨[], t, rfl, by simp⟩
    · rcases List.mem_cons.mp h with h | h
      · exact absurd h.symm hc
      · obtain ⟨body, rest, ht, hb⟩ := ih h
        refine ⟨c :: body, rest, by simp [ht], ?_⟩
        intro hm
        rcases List.mem_cons.mp hm with h3 | h3
        · exact hc h3.symm
        · exact hb h3

theorem regex_search_re_string (t : List Nat) :
    regex_search (34 :: t) re_string =
      ((seq (star re_string_unit) (lit 34) (1, t)).head?).map (fun y => (0, y.1)) := by
  show regex_search (34 :: t)
    (seq bol (seq (lit 34) (seq (star re_string_unit) (lit 34)))) = _
  rw [regex_search_bol, seq_lit_cons]

/-- The result on a byte range that starts with a quote and has a further quote: `body` is
what stands between the first two quotes. -/
theorem match_string_split (body rest : List Nat) (hq : 34 ∉ body) :
    (IsStringBody body →
      attempt_match (34 :: (body ++ 34 :: rest)) =
        (if rest = [] then match_result.complete_eof else match_result.complete,
          token_kind.string, body.length + 2))
    ∧ (¬ IsStringBody body →
      attempt_match (34 :: (body ++ 34 :: rest))
        = (match_result.unmatched, token_kind.string, 1)) := by
  have hmem : ∀ y, y ∈ seq (star re_string_unit) (lit 34) (1, body ++ 34 :: rest) →
      IsStringBody body ∧ y.1 = body.length + 2 := by
    intro y hy
    obtain ⟨pre, hb, ht, hi⟩ := (mem_string_tail _ _ _).mp hy
    have := first_quote_unique pre body _ _ ht.symm (isStringBody_no_quote pre hb) hq
    rw [this.1] at hb hi
    exact ⟨hb, by omega⟩
  rw [attempt_match_string]
  unfold match_string match_pattern
  rw [regex_search_re_string]
  constructor
  · intro hb
    have hin : (1 + body.length + 1, rest) ∈
        seq (star re_string_unit) (lit 34) (1, body ++ 34 :: rest) :=
      (mem_string_tail _ _ _).mpr ⟨body, hb, rfl, rfl⟩
    cases hl : seq (star re_string_unit) (lit 34) (1, body ++ 34 :: rest) with
    | nil => simp [hl] at hin
    | cons y l =>
      have hy := (hmem y (by rw [hl]; exact List.mem_cons_self _ _)).2
      simp only [List.head?_cons, Option.map_some', hy, List.length_cons, List.length_append]
      by_cases hr : rest = []
      · subst hr
        simp
      · have : rest.length ≠ 0 := fun h => hr (List.length_eq_zero.mp h)
        rw [if_neg (by omega), if_neg hr]
  · intro hb
    cases hl : seq (star re_string_unit) (lit 34) (1, body ++ 34 :: rest) with
    | nil => simp
    | cons y l =>
      exact absurd (hmem y (by rw [hl]; exact List.mem_cons_self _ _)).1 hb

/-- The result on a byte range that starts with a quote and has no further quote. -/
theorem match_string_no_quote (t : List Nat) (hq : 34 ∉ t) :
    attempt_match (34 :: t) = (match_result.unmatched, token_kind.string, 1) := by
  rw [attempt_match_string]
  unfold match_string match_pattern
  rw [regex_search_re_string]
  cases hl : seq (star re_string_unit) (lit 34) (1, t) with
  | nil => simp
  | cons y l =>
    obtain ⟨pre, -, ht, -⟩ :=
      (mem_string_tail 1 t y).mp (by rw [hl]; exact List.mem_cons_self _ _)
    exact absurd (by rw [ht]; simp) hq

/-! ## The comment pattern -/

theorem adv_re_comment_unit : Adv 0 re_comment_unit := adv_comment_unit

/-- One step of the loop of `re_comment`: an iteration of the group that consumes at least
one byte, followed by the rest of the loop, or the closing `*/`. -/
theorem re_comment_tail_unfold (x : State) :
    re_comment_tail x =
      (re_comment_unit x).flatMap (fun y => if y.1 = x.1 then [] else re_comment_tail y)
        ++ seq (lit 42) (lit 47) x := by
  show (star re_comment_unit x).flatMap (seq (lit 42) (lit 47)) = _
  rw [star_unfold adv_re_comment_unit, List.flatMap_append, List.flatMap_singleton,
    List.flatMap_assoc]
  congr 1
  apply List.flatMap_congr
  intro y _
  split
  · rfl
  · rfl

theorem re_comment_unit_star (i : Nat) (rest : List Nat) :
    re_comment_unit (i, 42 :: rest) = (i, 42 :: rest) :: cls isNotSlash (i + 1, rest) := by
  unfold re_comment_unit alt
  rw [star_cls_cons, seq_lit_cons]
  simp [isNotStar]

theorem re_comment_tail_nil (i : Nat) : re_comment_tail (i, []) = [] := by
  rw [re_comment_tail_unfold]
  simp [re_comment_unit, alt, star_cls_nil, seq_lit_nil]

theorem re_comment_tail_star (i : Nat) : re_comment_tail (i, [42]) = [] := by
  rw [re_comment_tail_unfold, re_comment_unit_star, seq_lit_cons]
  simp [cls_nil, lit]

theorem re_comment_tail_end (i : Nat) (t : List Nat) :
    re_comment_tail (i, 42 :: 47 :: t) = [(i + 2, t)] := by
  rw [re_comment_tail_unfold, re_comment_unit_star, seq_lit_cons]
  simp [cls_cons, isNotSlash, lit]

theorem re_comment_tail_pair (i d : Nat) (t : List Nat) (hd : d ≠ 47) :
    re_comment_tail (i, 42 :: d :: t) = re_comment_tail (i + 2, t) := by
  rw [re_comment_tail_unfold, re_comment_unit_star, seq_lit_cons]
  have hi : ¬ (i + 1 + 1 = i) := by omega
  simp [cls_cons, isNotSlash, lit, hd, hi]

theorem star_cls_init (p : Nat → Bool) (i : Nat) (s : List Nat) :
    ∃ l, star (cls p) (i, s) = l ++ [(i, s)] ∧ ∀ y ∈ l, i + 1 ≤ y.1 := by
  cases s with
  | nil => exact ⟨[], by simp [star_cls_nil], by simp⟩
  | cons c t =>
    rw [star_cls_cons]
    by_cases hp : p c = true
    · refine ⟨star (cls p) (i + 1, t), by simp [hp], ?_⟩
      intro y hy
      have := adv_star (adv_mono (adv_cls p) (Nat.zero_le 1)) (i + 1, t) y hy
      simpa using this.1
    · exact ⟨[], by simp [hp], by simp⟩

/-- A byte other than `*` is skipped: the preferred match from the byte is the preferred
match from the next byte. -/
theorem re_comment_tail_skip (i c : Nat) (t : List Nat) (hc : c ≠ 42) :
    (re_comment_tail (i, c :: t)).head? = (re_comment_tail (i + 1, t)).head? := by
  obtain ⟨l, hl, hmem⟩ := star_cls_init isNotStar (i + 1) t
  have hstar : isNotStar c = true := by simp [isNotStar, hc]
  have h1 : re_comment_unit (i, c :: t) = l ++ [(i + 1, t)] ++ [(i, c :: t)] := by
    unfold re_comment_unit alt
    rw [star_cls_cons, seq_lit_cons_ne _ _ _ _ _ hc]
    simp [hstar, hl]
  have h2 : re_comment_unit (i + 1, t)
      = l ++ [(i + 1, t)] ++ seq (lit 42) (cls isNotSlash) (i + 1, t) := by
    unfold re_comment_unit alt
    rw [hl]
  have hl1 : l.flatMap (fun y => if y.1 = i then [] else re_comment_tail y)
      = l.flatMap re_comment_tail := by
    apply List.flatMap_congr
    intro y hy
    have := hmem y hy
    rw [if_neg (by omega)]
  have hl2 : l.flatMap (fun y => if y.1 = i + 1 then [] else re_comment_tail y)
      = l.flatMap re_comment_tail := by
    apply List.flatMap_congr
    intro y hy
    have := hmem y hy
    rw [if_neg (by omega)]
  have e1 : re_comment_tail (i, c :: t)
      = l.flatMap re_comment_tail ++ re_comment_tail (i + 1, t) := by
    rw [re_comment_tail_unfold (i, c :: t), h1]
    simp only [List.flatMap_append, List.flatMap_singleton, hl1]
    simp [seq_lit_cons_ne _ _ _ _ _ hc]
  have e2 : ∃ r, re_comment_tail (i + 1, t) = l.flatMap re_comment_tail ++ r := by
    refine ⟨(seq (lit 42) (cls isNotSlash) (i + 1, t)).flatMap
      (fun y => if y.1 = i + 1 then [] else re_comment_tail y)
        ++ seq (lit 42) (lit 47) (i + 1, t), ?_⟩
    rw [re_comment_tail_unfold (i + 1, t), h2]
    simp only [List.flatMap_append, List.flatMap_singleton, hl2]
    simp only [if_true, List.append_nil, List.append_assoc]
  obtain ⟨r, e2⟩ := e2
  rw [e1, e2]
  simp only [List.head?_append]
  cases (l.flatMap re_comment_tail).head? <;> simp

/-- The preferred match of the part of `re_comment` after `/*` ends where the walk
`commentEnd` ends. -/
theorem re_comment_tail_head (n : Nat) (s : List Nat) (hn : s.length ≤ n) (i : Nat) :
    ((re_comment_tail (i, s)).head?).map Prod.fst = (commentEnd s).map (fun k => i + k) := by
  induction n generalizing s i with
  | zero =>
    have : s = [] := List.length_eq_zero.mp (by omega)
    subst this
    simp [re_comment_tail_nil, commentEnd]
  | succ n ih =>
    match s, hn with
    | [], _ => simp [re_comment_tail_nil, commentEnd]
    | [c], _ =>
      by_cases hc : c = 42
      · subst hc
        simp [re_comment_tail_star, commentEnd]
      · rw [re_comment_tail_skip i c [] hc]
        simp [re_comment_tail_nil, commentEnd]
    | c :: d :: t, hn =>
      simp only [List.length_cons] at hn
      by_cases hc : c = 42
      · subst hc
        by_cases hd : d = 47
        · subst hd
          simp [re_comment_tail_end, commentEnd]
        · rw [re_comment_tail_pair i d t hd, ih t (by omega) (i + 2)]
          simp only [commentEnd, if_true, hd, if_false, Option.map_map]
          congr 1
          funext k
          simp only [Function.comp_apply]
          omega
      · rw [re_comment_tail_skip i c (d :: t) hc, ih (d :: t) (by simp; omega) (i + 1)]
        simp only [commentEnd, hc, if_false, Option.map_map]
        congr 1
        funext k
        simp only [Function.comp_apply]
        omega

theorem regex_search_re_comment (t : List Nat) :
    regex_search (47 :: 42 :: t) re_comment = (commentEnd t).map (fun k => (0, k + 2)) := by
  show regex_search (47 :: 42 :: t) (seq bol (seq (lit 47) (seq (lit 42) re_comment_tail))) = _
  rw [regex_search_bol, seq_lit_cons, seq_lit_cons]
  have := re_comment_tail_head t.length t (Nat.le_refl _) 2
  cases hc : commentEnd t with
  | none =>
    rw [hc] at this
    simp only [Option.map_none', Option.map_eq_none'] at this
    simp [this]
  | some k =>
    rw [hc] at this
    simp only [Option.map_some', Option.map_eq_some'] at this
    obtain ⟨y, hy, hy1⟩ := this
    simp only [Nat.zero_add, Nat.reduceAdd, hy, Option.map_some', hy1, Option.some.injEq,
      Prod.mk.injEq, true_and]
    omega

theorem regex_search_re_comment_ne (c : Nat) (t : List Nat) (hc : c ≠ 42) :
    regex_search (47 :: c :: t) re_comment = none := by
  show regex_search (47 :: c :: t) (seq bol (seq (lit 47) (seq (lit 42) re_comment_tail))) = _
  rw [regex_search_bol, seq_lit_cons, seq_lit_cons_ne _ _ _ _ _ hc]
  rfl

theorem regex_search_re_comment_nil : regex_search [47] re_comment = none := by
  show regex_search [47] (seq bol (seq (lit 47) (seq (lit 42) re_comment_tail))) = _
  rw [regex_search_bol, seq_lit_cons, seq_lit_nil]
  rfl

theorem commentEnd_append (s t : List Nat) (k : Nat) (h : commentEnd s = some k) :
    commentEnd (s ++ t) = some k := by
  induction s using commentEnd.induct generalizing k with
  | case1 => simp [commentEnd] at h
  | case2 c => simp [commentEnd] at h
  | case3 t2 =>
    simp only [commentEnd, if_true] at h
    simp only [List.cons_append, commentEnd, if_true]
    exact h
  | case4 d t2 hd ih =>
    simp only [commentEnd, if_true, hd, if_false, Option.map_eq_some'] at h
    obtain ⟨k2, hk, hk2⟩ := h
    simp only [List.cons_append, commentEnd, if_true, hd, if_false, List.append_eq,
      ih k2 hk, Option.map_some', hk2]
  | case5 c d t2 hc ih =>
    simp only [commentEnd, hc, if_false, Option.map_eq_some'] at h
    obtain ⟨k2, hk, hk2⟩ := h
    have := ih k2 hk
    simp only [List.cons_append] at this
    simp only [List.cons_append, commentEnd, hc, if_false, List.append_eq, this,
      Option.map_some', hk2]

theorem commentEnd_terminator (s : List Nat) (k : Nat) (h : commentEnd s = some k) :
    [42, 47] <:+: s := by
  induction s using commentEnd.induct generalizing k with
  | case1 => simp [commentEnd] at h
  | case2 c => simp [commentEnd] at h
  | case3 t2 => exact ⟨[], t2, rfl⟩
  | case4 d t2 hd ih =>
    simp only [commentEnd, if_true, hd, if_false, Option.map_eq_some'] at h
    obtain ⟨k2, hk, -⟩ := h
    obtain ⟨a, b, hab⟩ := ih k2 hk
    exact ⟨42 :: d :: a, b, by simp [← hab]⟩
  | case5 c d t2 hc ih =>
    simp only [commentEnd, hc, if_false, Option.map_eq_some'] at h
    obtain ⟨k2, hk, -⟩ := h
    obtain ⟨a, b, hab⟩ := ih k2 hk
    exact ⟨c :: a, b, by simp [← hab]⟩

theorem commentEnd_le (s : List Nat) (k : Nat) (h : commentEnd s = some k) :
    2 ≤ k ∧ k ≤ s.length := by
  induction s using commentEnd.induct generalizing k with
  | case1 => simp [commentEnd] at h
  | case2 c => simp [commentEnd] at h
  | case3 t2 =>
    simp only [commentEnd, if_true, Option.some.injEq] at h
    simp only [List.length_cons]
    omega
  | case4 d t2 hd ih =>
    simp only [commentEnd, if_true, hd, if_false, Option.map_eq_some'] at h
    obtain ⟨k2, hk, hk2⟩ := h
    have := ih k2 hk
    simp only [List.length_cons]
    omega
  | case5 c d t2 hc ih =>
    simp only [commentEnd, hc, if_false, Option.map_eq_some'] at h
    obtain ⟨k2, hk, hk2⟩ := h
    have := ih k2 hk
    simp only [List.length_cons] at this ⊢
    omega

/-- The result on a byte range that starts with `/*`, by the walk over the bytes after it. -/
theorem match_comment_open (t : List Nat) :
    attempt_match (47 :: 42 :: t) =
      match commentEnd t with
      | some k =>
        (if k + 2 = t.length + 2 then match_result.complete_eof else match_result.complete,
          token_kind.comment, k + 2)
      | none => (match_result.unmatched, token_kind.comment, 1) := by
  rw [attempt_match_comment]
  unfold match_comment match_pattern
  rw [regex_search_re_comment]
  cases commentEnd t <;> simp

/-- The result on a byte range that starts with `/` not followed by `*`. -/
theorem match_comment_not_open (c : Nat) (t : List Nat) (hc : c ≠ 42) :
    attempt_match (47 :: c :: t) = (match_result.unmatched, token_kind.comment, 1) := by
  rw [attempt_match_comment]
  unfold match_comment match_pattern
  rw [regex_search_re_comment_ne c t hc]

theorem match_comment_slash :
    attempt_match [47] = (match_result.unmatched, token_kind.comment, 1) := by
  rw [attempt_match_comment]
  unfold match_comment match_pattern
  rw [regex_search_re_comment_nil]

/-- The result on a byte range that starts with a whitespace byte. -/
theorem match_whitespace_run (c : Nat) (t : List Nat) (hc : isSpace c = true) :
    attempt_match (c :: t) =
      (if ((c :: t).takeWhile isSpace).length = (c :: t).length
        then match_result.complete_eof else match_result.complete,
       token_kind.whitespace, ((c :: t).takeWhile isSpace).length) := by
  have hs : regex_search (c :: t) re_whitespace
      = some (0, ((c :: t).takeWhile isSpace).length) := by
    unfold re_whitespace
    rw [regex_search_bol, plus_cls_head]
    simp [hc]
  rw [attempt_match_whitespace c t hc]
  unfold match_whitespace
  rw [match_pattern_of_search _ _ _ _ hs]

theorem takeWhile_append_of_lt (p : Nat → Bool) (s t : List Nat)
    (h : (s.takeWhile p).length < s.length) : (s ++ t).takeWhile p = s.takeWhile p := by
  induction s with
  | nil => simp at h
  | cons c s ih =>
    by_cases hc : p c = true
    · simp only [List.takeWhile_cons_of_pos hc, List.length_cons] at h
      simp only [List.cons_append, List.takeWhile_cons_of_pos hc, ih (by omega)]
    · simp [hc]

/-- A literal that is fully present in a byte range is fully present in every extension. -/
theorem match_literal_loop_append (s t literal : List Nat) (k len L : Nat)
    (hlen : len ≤ s.length)
    (h : match_literal_loop s literal k len = (match_result.complete, L)) :
    match_literal_loop (s ++ t) literal k len = (match_result.complete, L) := by
  induction k generalizing len with
  | zero =>
    simp only [match_literal_loop] at h ⊢
    exact h
  | succ k ih =>
    rw [match_literal_loop] at h ⊢
    split at h
    · simp at h
    · rename_i hne
      split at h
      · simp at h
      · rename_i heq
        have hlt : len < s.length := by omega
        rw [if_neg (by rw [List.length_append]; omega)]
        have hget : (s ++ t).getD len 0 = s.getD len 0 := by
          simp only [List.getD_eq_getElem?_getD, List.getElem?_append_left hlt]
        rw [hget, if_neg heq]
        exact ih (len + 1) (by omega) h

theorem match_literal_append (s t literal : List Nat) (L : Nat)
    (h : match_literal s literal = (match_result.complete, L)) :
    match_literal (s ++ t) literal = (match_result.complete, L) :=
  match_literal_loop_append s t literal _ 0 L (Nat.zero_le _) h

/-! ## Claims on the patterns -/

/-- C13, counterexample: on the two bytes `1.` the result is `(complete, number, 1)`, and on
the three bytes `1.5`, the same bytes followed by `5`, it is `(complete_eof, number, 3)`. -/
theorem attempt_match_complete_stable_counterexample :
    attempt_match [49, 46] = (match_result.complete, token_kind.number, 1)
    ∧ attempt_match ([49, 46] ++ [53]) = (match_result.complete_eof, token_kind.number, 3)
    ∧ ¬ (∀ (s t : List Nat) (K : token_kind) (L : Nat),
        attempt_match s = (match_result.complete, K, L) →
        attempt_match (s ++ t) = (match_result.complete, K, L)) := by
  refine ⟨by decide, by decide, fun h => ?_⟩
  have h1 := h [49, 46] [53] token_kind.number 1 (by decide)
  have h2 : attempt_match ([49, 46] ++ [53])
      = (match_result.complete_eof, token_kind.number, 3) := by decide
  rw [h2] at h1
  simp at h1

/-- A `complete` result with a kind other than `number` is unaffected by further input. -/
theorem complete_stable_other_kinds (s t : List Nat) (K : token_kind) (L : Nat)
    (h : attempt_match s = (match_result.complete, K, L)) (hK : K ≠ token_kind.number) :
    attempt_match (s ++ t) = (match_result.complete, K, L) := by
  cases s with
  | nil => simp [attempt_match] at h
  | cons c s =>
    have hlit : ∀ literal : List Nat,
        (match_literal (c :: s) literal).1 = match_result.complete →
        (match_literal (c :: s) literal).2 = L →
        match_literal (c :: (s ++ t)) literal = (match_result.complete, L) := by
      intro literal h1 h2
      exact match_literal_append (c :: s) t literal L (Prod.ext h1 h2)
    rw [List.cons_append]
    rcases attempt_match_cons_cases c s with
      ⟨K0, hc, hK0⟩ | hK0 | hK0 | hK0 | hK0 | hK0 | hK0 | hK0 | hK0
    · rw [← h]
      rcases hc with h1 | h1 | h1 | h1 | h1 | h1 <;> subst h1 <;> simp [attempt_match]
    · obtain ⟨hc, hK0⟩ := hK0
      subst hc
      rw [hK0] at h
      simp only [match_true, Prod.mk.injEq] at h
      have := hlit lit_true h.1 h.2.2
      simp [attempt_match, match_true, this, h.2.1]
    · obtain ⟨hc, hK0⟩ := hK0
      subst hc
      rw [hK0] at h
      simp only [match_false, Prod.mk.injEq] at h
      have := hlit lit_false h.1 h.2.2
      simp [attempt_match, match_false, this, h.2.1]
    · obtain ⟨hc, hK0⟩ := hK0
      subst hc
      rw [hK0] at h
      simp only [match_null, Prod.mk.injEq] at h
      have := hlit lit_null h.1 h.2.2
      simp [attempt_match, match_null, this, h.2.1]
    · rw [hK0.2] at h
      simp only [match_number, Prod.mk.injEq] at h
      exact absurd h.2.1.symm hK
    · obtain ⟨hc, -⟩ := hK0
      subst hc
      by_cases hq : 34 ∈ s
      · obtain ⟨body, rest, hs, hb⟩ := exists_first_quote s hq
        subst hs
        by_cases hbody : IsStringBody body
        · rw [(match_string_split body rest hb).1 hbody] at h
          simp only [Prod.mk.injEq] at h
          have hrest : rest ≠ [] := by
            intro hr
            rw [if_pos hr] at h
            simp at h
          rw [List.append_assoc, List.cons_append,
            (match_string_split body (rest ++ t) hb).1 hbody, if_neg (by simp [hrest]),
            ← h.2.1, ← h.2.2]
        · rw [(match_string_split body rest hb).2 hbody] at h
          simp at h
      · rw [match_string_no_quote s hq] at h
        simp at h
    · obtain ⟨hc, -⟩ := hK0
      rw [match_whitespace_run c s hc] at h
      simp only [Prod.mk.injEq] at h
      have hne : ((c :: s).takeWhile isSpace).length ≠ (c :: s).length := by
        intro heq
        rw [if_pos heq] at h
        simp at h
      have hle : ((c :: s).takeWhile isSpace).length ≤ (c :: s).length :=
        (List.takeWhile_prefix isSpace).length_le
      have htw := takeWhile_append_of_lt isSpace (c :: s) t (by omega)
      rw [List.cons_append] at htw
      rw [match_whitespace_run c (s ++ t) hc, htw, ← h.2.1, ← h.2.2]
      rw [if_neg]
      simp only [List.length_cons, List.length_append] at hne hle ⊢
      omega
    · obtain ⟨hc, -⟩ := hK0
      subst hc
      cases s with
      | nil =>
        rw [match_comment_slash] at h
        simp at h
      | cons d s =>
        by_cases hd : d = 42
        · subst hd
          rw [match_comment_open] at h
          rw [List.cons_append, match_comment_open]
          cases hce : commentEnd s with
          | none =>
            rw [hce] at h
            simp at h
          | some k =>
            rw [hce] at h
            simp only [Prod.mk.injEq] at h
            have hne : k + 2 ≠ s.length + 2 := by
              intro heq
              rw [if_pos heq] at h
              simp at h
            have hle := (commentEnd_le s k hce).2
            rw [commentEnd_append s t k hce]
            simp only
            rw [if_neg (by rw [List.length_append]; omega), ← h.2.1, ← h.2.2]
        · rw [match_comment_not_open d s hd] at h
          simp at h
    · rw [hK0.2] at h
      simp at h

/-- C14: on a non-empty byte range whose first byte selects a pattern (`-`, a digit, `"`,
space, tab, LF, CR or `/`) the result is never `incomplete_eof`; a range that starts with
`"` and holds no further `"` gives `(unmatched, string, 1)`, a range that starts with `/*`
and holds no `*/` after it gives `(unmatched, comment, 1)`, and the one byte `-` gives
`(unmatched, number, 1)`. -/
theorem attempt_match_pattern_truncated :
    (∀ (c : Nat) (t : List Nat),
      (c = 45 ∨ isDigit c = true ∨ c = 34 ∨ isSpace c = true ∨ c = 47) →
      (attempt_match (c :: t)).1 ≠ match_result.incomplete_eof)
    ∧ (∀ t : List Nat, 34 ∉ t →
      attempt_match (34 :: t) = (match_result.unmatched, token_kind.string, 1))
    ∧ (∀ t : List Nat, ¬ [42, 47] <:+: t →
      attempt_match (47 :: 42 :: t) = (match_result.unmatched, token_kind.comment, 1))
    ∧ attempt_match [45] = (match_result.unmatched, token_kind.number, 1) := by
  refine ⟨?_, match_string_no_quote, ?_, by decide⟩
  · intro c t hc
    rcases hc with hc | hc | hc | hc | hc
    · rw [attempt_match_number c t (Or.inl hc)]
      exact match_pattern_ne_incomplete _ _
    · rw [attempt_match_number c t (Or.inr hc)]
      exact match_pattern_ne_incomplete _ _
    · subst hc
      rw [attempt_match_string]
      exact match_pattern_ne_incomplete _ _
    · rw [attempt_match_whitespace c t hc]
      exact match_pattern_ne_incomplete _ _
    · subst hc
      rw [attempt_match_comment]
      exact match_pattern_ne_incomplete _ _
  · intro t ht
    rw [match_comment_open]
    cases hce : commentEnd t with
    | none => rfl
    | some k => exact absurd (commentEnd_terminator t k hce) ht

/-- Witness of C14 on the four bytes `"abc` and on the five bytes `/* c`: both are
`unmatched` with length one. -/
theorem attempt_match_pattern_truncated_witness :
    attempt_match [34, 97, 98, 99] = (match_result.unmatched, token_kind.string, 1)
    ∧ attempt_match [47, 42, 32, 99, 32]
        = (match_result.unmatched, token_kind.comment, 1) :=
  ⟨attempt_match_pattern_truncated.2.1 [97, 98, 99] (by decide),
   attempt_match_pattern_truncated.2.2.1 [32, 99, 32] (by decide)⟩

/-- C15: the exact string grammar.  On a byte range that starts with `"`: when there is a
further `"`, with `body` the bytes between the first two quotes, the result is successful
with the kind `string` and the length of `body` plus two if `body` can be split into units
(a single byte of the bracket expression, or backslash, `u` and four hex digits), and it is
`(unmatched, string, 1)` if `body` cannot; when there is no further `"` the result is
`(unmatched, string, 1)`. -/
theorem attempt_match_string_grammar (t : List Nat) :
    (∀ body rest : List Nat, t = body ++ 34 :: rest → 34 ∉ body →
      (IsStringBody body →
        attempt_match (34 :: t) =
          (if rest = [] then match_result.complete_eof else match_result.complete,
            token_kind.string, body.length + 2))
      ∧ (¬ IsStringBody body →
        attempt_match (34 :: t) = (match_result.unmatched, token_kind.string, 1)))
    ∧ (34 ∉ t → attempt_match (34 :: t) = (match_result.unmatched, token_kind.string, 1)) := by
  refine ⟨?_, match_string_no_quote t⟩
  intro body rest ht hb
  subst ht
  exact match_string_split body rest hb

/-- Witness of C15 on the eight bytes quote, backslash, `u00bf`, quote: the body is one unit
and the result is `(complete_eof, string, 8)`. -/
theorem attempt_match_string_grammar_witness :
    attempt_match [34, 92, 117, 48, 48, 98, 102, 34]
      = (match_result.complete_eof, token_kind.string, 8) :=
  ((attempt_match_string_grammar [92, 117, 48, 48, 98, 102, 34]).1
    [92, 117, 48, 48, 98, 102] [] rfl (by decide)).1
    ⟨[[92, 117, 48, 48, 98, 102]], rfl, by
      intro u hu
      simp only [List.mem_singleton] at hu
      subst hu
      exact Or.inr ⟨48, 48, 98, 102, rfl, by decide, by decide, by decide, by decide⟩⟩

/-! ## Further input after a number -/

theorem dropWhile_append_of_lt (p : Nat → Bool) (s t : List Nat)
    (h : (s.takeWhile p).length < s.length) :
    (s ++ t).dropWhile p = s.dropWhile p ++ t := by
  induction s with
  | nil => simp at h
  | cons c s ih =>
    by_cases hc : p c = true
    · simp only [List.takeWhile_cons_of_pos hc, List.length_cons] at h
      simp only [List.cons_append, List.dropWhile_cons_of_pos hc, ih (by omega)]
    · simp [hc]

theorem digitsLen_lt_of_dropWhile (s : List Nat) (h : s.dropWhile isDigit ≠ []) :
    digitsLen s < s.length := by
  have h1 : (s.takeWhile isDigit ++ s.dropWhile isDigit).length = s.length := by
    rw [List.takeWhile_append_dropWhile]
  have h2 : (s.dropWhile isDigit).length ≠ 0 := fun h0 => h (List.length_eq_zero.mp h0)
  rw [List.length_append] at h1
  unfold digitsLen
  omega

theorem digitsLen_append_of_lt (s t : List Nat) (h : digitsLen s < s.length) :
    digitsLen (s ++ t) = digitsLen s := by
  unfold digitsLen at h ⊢
  rw [takeWhile_append_of_lt isDigit s t h]

theorem digitsLen_append_of_zero (s t : List Nat) (hs : s ≠ []) (h : digitsLen s = 0) :
    digitsLen (s ++ t) = 0 := by
  cases s with
  | nil => exact absurd rfl hs
  | cons c s =>
    by_cases hc : isDigit c = true
    · simp [digitsLen, hc] at h
    · simp [digitsLen, hc]

/-- The scan of an optional fractional part is unaffected by further input when it leaves
bytes behind and these are not the single byte `.`. -/
theorem frac_append (u t : List Nat) (h1 : fracRest u ≠ []) (h2 : u ≠ [46]) :
    fracLen (u ++ t) = fracLen u ∧ fracRest (u ++ t) = fracRest u ++ t := by
  cases u with
  | nil => exact absurd rfl h1
  | cons c u =>
    by_cases hc : c = 46
    · subst hc
      by_cases hd : digitsLen u = 0
      · have hu : u ≠ [] := by
          intro hu
          subst hu
          exact h2 rfl
        have hd2 := digitsLen_append_of_zero u t hu hd
        simp [fracLen, fracRest, hd, hd2]
      · have hr : u.dropWhile isDigit ≠ [] := by
          simpa [fracRest, hd] using h1
        have hlt := digitsLen_lt_of_dropWhile u hr
        have hd2 := digitsLen_append_of_lt u t hlt
        have hdw := dropWhile_append_of_lt isDigit u t hlt
        simp [fracLen, fracRest, hd, hd2, hdw]
    · simp [fracLen, fracRest, hc]

theorem signLen_append (s t : List Nat) (hs : s ≠ []) :
    signLen (s ++ t) = signLen s
    ∧ (s ++ t).drop (signLen s) = s.drop (signLen s) ++ t := by
  cases s with
  | nil => exact absurd rfl hs
  | cons c s =>
    by_cases hc : c = 45
    · simp [signLen, hc]
    · simp [signLen, hc]

/-- The scan of a mantissa is unaffected by further input when it leaves bytes behind and
these are not the single byte `.`. -/
theorem mant_append (s t : List Nat) (n : Nat) (h : mantLen s = some n)
    (h1 : mantRest s ≠ []) (h2 : mantRest s ≠ [46]) :
    mantLen (s ++ t) = some n ∧ mantRest (s ++ t) = mantRest s ++ t := by
  have hs : s ≠ [] := by
    intro hs
    subst hs
    simp [mantLen, signLen, digitsLen] at h
  obtain ⟨hsg, hdrop⟩ := signLen_append s t hs
  unfold mantLen at h
  unfold mantRest at h1 h2
  by_cases hd : digitsLen (s.drop (signLen s)) = 0
  · simp [hd] at h
  · rw [if_neg hd] at h
    have hu : (s.drop (signLen s)).dropWhile isDigit ≠ [] := by
      intro hu
      rw [hu] at h1
      exact h1 rfl
    have hu2 : (s.drop (signLen s)).dropWhile isDigit ≠ [46] := by
      intro hu2
      rw [hu2] at h2
      exact h2 (by simp [fracRest, digitsLen])
    have hlt := digitsLen_lt_of_dropWhile _ hu
    have hd2 := digitsLen_append_of_lt _ t hlt
    have hdw := dropWhile_append_of_lt isDigit _ t hlt
    have hf := frac_append _ t h1 hu2
    unfold mantLen mantRest
    rw [hsg, hdrop, hd2, hdw, hf.1, hf.2, if_neg hd]
    exact ⟨h, rfl⟩

/-- A mantissa that is missing stays missing with further input, except after no byte at all
and after the single byte `-`. -/
theorem mant_append_none (s t : List Nat) (h : mantLen s = none) (h1 : s ≠ [])
    (h2 : s ≠ [45]) : mantLen (s ++ t) = none := by
  obtain ⟨hsg, hdrop⟩ := signLen_append s t h1
  unfold mantLen at h
  by_cases hd : digitsLen (s.drop (signLen s)) = 0
  · have hne : s.drop (signLen s) ≠ [] := by
      cases s with
      | nil => exact absurd rfl h1
      | cons c s =>
        by_cases hc : c = 45
        · subst hc
          simp only [signLen, if_true, List.drop_succ_cons, List.drop_zero]
          intro hs
          subst hs
          exact h2 rfl
        · simp [signLen, hc]
    unfold mantLen
    rw [hsg, hdrop, digitsLen_append_of_zero _ t hne hd]
    simp
  · rw [if_neg hd] at h
    simp at h

/-- The scan of a number is unaffected by further input when it leaves bytes behind and
these are none of `.`, `e`, `E`, `e-`, `E-`. -/
theorem num_append (s t : List Nat) (L : Nat) (h : numLen s = some L)
    (hr : s.drop L ≠ []) (h1 : s.drop L ≠ [46])
    (h2 : ∀ e, isExpChar e = true → s.drop L ≠ [e] ∧ s.drop L ≠ [e, 45]) :
    numLen (s ++ t) = some L := by
  unfold numLen at h
  cases hl : mantLen s with
  | none => simp [hl] at h
  | some n =>
    obtain ⟨w, hs, hwl, -⟩ := mant_sound s n hl
    have hdrop : s.drop n = mantRest s := by
      conv_lhs => rw [hs]
      exact List.drop_left' hwl
    simp only [hl] at h
    cases hr0 : mantRest s with
    | nil =>
      simp only [hr0, Option.some.injEq] at h
      subst h
      rw [hdrop, hr0] at hr
      exact absurd rfl hr
    | cons e tl =>
      simp only [hr0] at h
      by_cases he : isExpChar e = true
      · simp only [he, if_true] at h
        have hM := mant_append s t n hl (by rw [hr0]; simp)
          (by
            rw [hr0]
            intro h46
            simp only [List.cons.injEq] at h46
            exact ne_46_of_isExpChar he h46.1)
        cases hl2 : mantLen tl with
        | none =>
          simp only [hl2, Option.some.injEq] at h
          subst h
          rw [hdrop, hr0] at h2
          have h3 := h2 e he
          have hN := mant_append_none tl t hl2
            (by
              intro htl
              subst htl
              exact h3.1 rfl)
            (by
              intro htl
              subst htl
              exact h3.2 rfl)
          unfold numLen
          simp only [hM.1, hM.2, hr0, List.cons_append, he, if_true, hN]
        | some n2 =>
          simp only [hl2, Option.some.injEq] at h
          subst h
          obtain ⟨w2, hs2, hwl2, -⟩ := mant_sound tl n2 hl2
          have hdrop2 : s.drop (n + 1 + n2) = mantRest tl := by
            have hs3 : s = (w ++ e :: w2) ++ mantRest tl := by
              conv_lhs => rw [hs, hr0, hs2]
              simp
            conv_lhs => rw [hs3]
            exact List.drop_left' (by simp [hwl, hwl2]; omega)
          rw [hdrop2] at hr h1
          have hM2 := mant_append tl t n2 hl2 hr h1
          unfold numLen
          simp only [hM.1, hM.2, hr0, List.cons_append, he, if_true, hM2.1]
      · rw [if_neg he] at h
        simp only [Option.some.injEq] at h
        subst h
        rw [hdrop] at hr h1
        have hM := mant_append s t n hl hr h1
        unfold numLen
        simp only [hM.1, hM.2, hr0, List.cons_append, he, Bool.false_eq_true, if_false]

theorem first_kind_number (c : Nat) (h : first_kind c = token_kind.number) :
    c = 45 ∨ isDigit c = true := by
  by_contra hn
  have h1 := attempt_match_cons_cases c []
  have hk := attempt_match_kind c []
  rw [h] at hk
  rcases h1 with ⟨K, hc, hK⟩ | hK | hK | hK | hK | hK | hK | hK | hK
  · rcases hc with h2 | h2 | h2 | h2 | h2 | h2 <;> subst h2 <;> revert h <;> decide
  · obtain ⟨h2, -⟩ := hK
    subst h2
    revert h
    decide
  · obtain ⟨h2, -⟩ := hK
    subst h2
    revert h
    decide
  · obtain ⟨h2, -⟩ := hK
    subst h2
    revert h
    decide
  · exact hn hK.1
  · obtain ⟨h2, -⟩ := hK
    subst h2
    revert h
    decide
  · rw [hK.2] at hk
    simp [match_whitespace] at hk
  · obtain ⟨h2, -⟩ := hK
    subst h2
    revert h
    decide
  · rw [hK.2] at hk
    simp at hk

/-- A `complete` result with the kind `number` is unaffected by further input when the bytes
after the token are none of `.`, `e`, `E`, `e-`, `E-`. -/
theorem complete_stable_number (s t : List Nat) (L : Nat)
    (h : attempt_match s = (match_result.complete, token_kind.number, L))
    (hrest : s.drop L ≠ [46] ∧ s.drop L ≠ [101] ∧ s.drop L ≠ [69]
      ∧ s.drop L ≠ [101, 45] ∧ s.drop L ≠ [69, 45]) :
    attempt_match (s ++ t) = (match_result.complete, token_kind.number, L) := by
  cases s with
  | nil => simp [attempt_match] at h
  | cons c s =>
    have hk := attempt_match_kind c s
    rw [h] at hk
    have hc := first_kind_number c hk.symm
    rw [attempt_match_number c s hc, match_number_eq] at h
    rw [List.cons_append, attempt_match_number c (s ++ t) hc, match_number_eq]
    cases hn : numLen (c :: s) with
    | none =>
      rw [hn] at h
      simp at h
    | some L0 =>
      rw [hn] at h
      simp only [Prod.mk.injEq, true_and] at h
      obtain ⟨hres, hL⟩ := h
      subst hL
      have hne : L0 ≠ (c :: s).length := by
        intro heq
        rw [if_pos heq] at hres
        simp at hres
      obtain ⟨w0, hp0, hl0, -⟩ := num_sound (c :: s) L0 hn
      have hle : L0 ≤ (c :: s).length := by
        rw [← hl0]
        exact hp0.length_le
      have hdrop : (c :: s).drop L0 ≠ [] := by
        intro hd
        have := congrArg List.length hd
        rw [List.length_drop] at this
        simp only [List.length_nil] at this
        omega
      obtain ⟨r1, r2, r3, r4, r5⟩ := hrest
      have happ := num_append (c :: s) t L0 hn hdrop r1 (by
        intro e he
        simp only [isExpChar, Bool.or_eq_true, beq_iff_eq] at he
        rcases he with he | he <;> subst he
        · exact ⟨r2, r4⟩
        · exact ⟨r3, r5⟩)
      rw [List.cons_append] at happ
      rw [happ]
      simp only
      rw [if_neg]
      simp only [List.length_cons, List.length_append] at hne hle ⊢
      omega

/-- Each of the five byte strings after a number token does change the result with further
input: after the token `1` the bytes `.`, `e`, `E`, `e-`, `E-` give `(complete, number, 1)`,
and followed by `5` they give `complete_eof` with the whole range as token. -/
theorem complete_unstable_after_number :
    (attempt_match [49, 46] = (match_result.complete, token_kind.number, 1)
      ∧ attempt_match ([49, 46] ++ [53]) = (match_result.complete_eof, token_kind.number, 3))
    ∧ (attempt_match [49, 101] = (match_result.complete, token_kind.number, 1)
      ∧ attempt_match ([49, 101] ++ [53])
          = (match_result.complete_eof, token_kind.number, 3))
    ∧ (attempt_match [49, 69] = (match_result.complete, token_kind.number, 1)
      ∧ attempt_match ([49, 69] ++ [53])
          = (match_result.complete_eof, token_kind.number, 3))
    ∧ (attempt_match [49, 101, 45] = (match_result.complete, token_kind.number, 1)
      ∧ attempt_match ([49, 101, 45] ++ [53])
          = (match_result.complete_eof, token_kind.number, 4))
    ∧ (attempt_match [49, 69, 45] = (match_result.complete, token_kind.number, 1)
      ∧ attempt_match ([49, 69, 45] ++ [53])
          = (match_result.complete_eof, token_kind.number, 4)) := by
  decide

/-- C13, amended: a `complete` result is unaffected by further input unless the token is a
number and the bytes of the range after the token are exactly `.`, `e`, `E`, `e-` or `E-`:
if `attempt_match` on `s` returns `(complete, K, L)` and, in case `K` is `number`, the bytes
of `s` from offset `L` on are none of these five, it returns the same on `s ++ t` for every
`t`. -/
theorem attempt_match_complete_stable (s t : List Nat) (K : token_kind) (L : Nat)
    (h : attempt_match s = (match_result.complete, K, L))
    (hnum : K = token_kind.number →
      s.drop L ≠ [46] ∧ s.drop L ≠ [101] ∧ s.drop L ≠ [69]
        ∧ s.drop L ≠ [101, 45] ∧ s.drop L ≠ [69, 45]) :
    attempt_match (s ++ t) = (match_result.complete, K, L) := by
  by_cases hK : K = token_kind.number
  · subst hK
    exact complete_stable_number s t L h (hnum rfl)
  · exact complete_stable_other_kinds s t K L h hK

/-- Witness of C13, amended, on the four bytes `123,` extended by `4`: the byte after the
token is `,` and the result stays `(complete, number, 3)`. -/
theorem attempt_match_complete_stable_witness :
    attempt_match [49, 50, 51, 44] = (match_result.complete, token_kind.number, 3)
    ∧ attempt_match ([49, 50, 51, 44] ++ [52])
        = (match_result.complete, token_kind.number, 3) :=
  ⟨by decide,
   attempt_match_complete_stable [49, 50, 51, 44] [52] token_kind.number 3
    (by decide) (fun _ => by decide)⟩

end jsonv.detail
